import Mathlib

/-!
Verification of the configuration-merge and content-dependency engine of the
`skel` repository, as a shallow embedding.

Paths are modelled as lists of components (`Path := List String`); the
locale-aware collator (an external collaborator that the specification treats
as an opaque total order on strings) is modelled by the lexicographic order on
strings.  Hash maps are modelled as association lists, process aborts
(`panic!` / `unwrap` failures) as `none` or a dedicated error constructor, and
fallible operations return `Except` / `Option`.
-/

namespace Skel

/-- A filesystem path, modelled as its list of components. -/
abbrev Path := List String

/-- Model of `Collator::collate`: an opaque total order on strings, modelled by
the lexicographic order. -/
def collate (a b : String) : Ordering :=
  if a < b then .lt else if b < a then .gt else .eq

/-- Componentwise lexicographic comparison of component lists, built on
`collate`. -/
def collateList : List String → List String → Ordering
  | [], [] => .eq
  | [], _ :: _ => .lt
  | _ :: _, [] => .gt
  | x :: xs, y :: ys =>
    match collate x y with
    | .eq => collateList xs ys
    | o => o

/-- The comparison used by `SkeletonConfig::calculate` and `read_tree` to sort
keys: collate the parent directory (`dropLast`) first and on a tie the file
name (the final component, kept as a one-element suffix so that the comparison
separates a path from its parent). -/
def pathCmp (a b : Path) : Ordering :=
  match collateList a.dropLast b.dropLast with
  | .eq => collateList (a.drop (a.length - 1)) (b.drop (b.length - 1))
  | o => o

/-- Boolean `≤` induced by `pathCmp`, used with `sortByB` to model
`sort_by`. -/
def pathLE (a b : Path) : Bool :=
  match pathCmp a b with
  | .gt => false
  | _ => true

/-- Insert into a sorted list, keeping it sorted for `le` (structurally
recursive so that concrete inputs evaluate). -/
def orderedInsertB {α : Type} (le : α → α → Bool) (a : α) : List α → List α
  | [] => [a]
  | b :: l => if le a b then a :: b :: l else b :: orderedInsertB le a l

/-- A stable comparison sort modelling `sort_by` (insertion sort; with a
total, transitive, antisymmetric `le` the result is the unique sorted
arrangement, so the choice of algorithm is immaterial). -/
def sortByB {α : Type} (le : α → α → Bool) : List α → List α
  | [] => []
  | a :: l => orderedInsertB le a (sortByB le l)

/-! ## Association-list model of maps -/

/-- Model of `HashMap::get`. -/
def lookupKV {α β : Type} [DecidableEq α] : List (α × β) → α → Option β
  | [], _ => none
  | (k', v) :: rest, k => if k' = k then some v else lookupKV rest k

/-- Model of `HashMap::insert` (overwrite in place, else append). -/
def insertKV {α β : Type} [DecidableEq α] : List (α × β) → α → β → List (α × β)
  | [], k, v => [(k, v)]
  | (k', v') :: rest, k, v =>
    if k' = k then (k, v) :: rest else (k', v') :: insertKV rest k v

/-- Model of mutating the value behind `HashMap::get_mut` (no effect when the
key is absent; callers that would panic on an absent key check first). -/
def updateKV {α β : Type} [DecidableEq α] : List (α × β) → α → (β → β) → List (α × β)
  | [], _, _ => []
  | (k', v) :: rest, k, f =>
    if k' = k then (k', f v) :: updateKV rest k f else (k', v) :: updateKV rest k f

/-- Model of map `extend`: insert every pair of the second map into the
first. -/
def extendKV {α β : Type} [DecidableEq α] (m1 m2 : List (α × β)) : List (α × β) :=
  m2.foldl (fun acc p => insertKV acc p.1 p.2) m1

/-! ## KDL document model (the external parser's output tree) -/

/-- Model of `kdl::KdlValue`.  The four integer radix constructors collapse
into one (they all carry an `i64` and stringify in decimal); a float is
carried as its decimal rendering and otherwise opaque. -/
inductive KdlValue where
  | str (s : String)
  | int (i : Int)
  | float (rendering : String)
  | bool (b : Bool)
  | null
deriving DecidableEq

/-- Model of `KdlValue::as_string`. -/
def KdlValue.as_string? : KdlValue → Option String
  | .str s => some s
  | _ => none

/-- Model of `kdl::KdlEntry`: an optional name (named entries) and a value. -/
structure KdlEntry where
  name : Option String
  value : KdlValue
deriving DecidableEq

mutual
/-- Model of `kdl::KdlNode`: a name, entries, and an optional children
block. -/
inductive KdlNode where
  | mk (name : String) (entries : List KdlEntry) (children : Option KdlDocument)
/-- Model of `kdl::KdlDocument`: a list of nodes. -/
inductive KdlDocument where
  | mk (nodes : List KdlNode)
end

def KdlNode.name : KdlNode → String
  | .mk n _ _ => n

def KdlNode.entries : KdlNode → List KdlEntry
  | .mk _ e _ => e

def KdlNode.children : KdlNode → Option KdlDocument
  | .mk _ _ c => c

def KdlDocument.nodes : KdlDocument → List KdlNode
  | .mk ns => ns

/-- Model of `KdlNode::get(usize)`: the i-th positional (unnamed) entry. -/
def KdlNode.getArg (n : KdlNode) (i : Nat) : Option KdlEntry :=
  (n.entries.filter (fun e => e.name.isNone))[i]?

/-- Model of `KdlDocument::get(&str)`: the first node with the given name. -/
def KdlDocument.get (doc : KdlDocument) (name : String) : Option KdlNode :=
  doc.nodes.find? (fun n => n.name == name)

/-- Model of `kdl_helpers::kdl_entry_to_string`: strings pass through, other
scalars take their textual rendering, null becomes the literal `null`. -/
def kdl_entry_to_string (e : KdlEntry) : String :=
  match e.value with
  | .str s => s
  | .int i => toString i
  | .float r => r
  | .bool b => toString b
  | .null => "null"

/-- Model of `tera::Value` as far as this configuration layer builds it. -/
inductive TeraValue where
  | str (s : String)
  | num (i : Int)
  | floatNum (rendering : String)
  | bool (b : Bool)
  | null
deriving DecidableEq

/-- Model of `kdl_helpers::kdl_entry_to_tera_value`. -/
def kdl_entry_to_tera_value (e : KdlEntry) : TeraValue :=
  match e.value with
  | .str s => .str s
  | .int i => .num i
  | .float r => .floatNum r
  | .bool b => .bool b
  | .null => .null

/-! ## Error model -/

/-- Payload of an I/O error, opaque. -/
structure IoErrorInfo where
  msg : String
deriving DecidableEq

/-- Payload of a KDL parse error, opaque. -/
structure KdlErrorInfo where
  msg : String
deriving DecidableEq

/-- Model of `ConfigErrorKind`; the diagnostic payload (document text, span,
label, help) is dropped, only the kind is observable here. -/
inductive ConfigErrorKind where
  | missingArgument
  | invalidString
  | missingSource
  | invalidFloat
deriving DecidableEq

/-- Model of `SkelError`.  `panicked` is not a variant of the Rust enum: it
marks executions on which the code aborts the process (`panic!`, or `unwrap`
on an error value) instead of returning through its `Result` channel. -/
inductive SkelErr where
  | ioError (e : IoErrorInfo)
  | kdlError (e : KdlErrorInfo)
  | configError (k : ConfigErrorKind)
  | panicked (msg : String)
deriving DecidableEq

/-! ## Content entries -/

inductive ContentKind where
  | file
  | template
deriving DecidableEq, Inhabited

/-- Model of `ContentKind::from_str_opt`.  A `none` result models the
`panic!("invalid content kind")` process abort on an unrecognized string. -/
def ContentKind.from_str_opt : Option String → Option ContentKind
  | none => some .file
  | some input =>
    if input.trim.toLower = "file" then some .file
    else if input.trim.toLower = "template" then some .template
    else none

/-- Model of `Content`: one piece of template content.  `dependencies` holds
content keys (strings in the source, paths here via `Path.ofString`). -/
structure Content where
  source : Path
  destination : Path
  kind : ContentKind
  dependencies : List Path
deriving DecidableEq, Inhabited

/-- Structural character-list prefix test (the model of `starts_with`,
written so it evaluates on concrete strings). -/
def isPrefixOfChars : List Char → List Char → Bool
  | [], _ => true
  | _ :: _, [] => false
  | a :: as, b :: bs => if a = b then isPrefixOfChars as bs else false

/-- Model of `str::starts_with`. -/
def strStartsWith (s pre : String) : Bool :=
  isPrefixOfChars pre.data s.data

/-- The file-name transformation of `Content::from_source`: a final component
starting with the literal `dot_` has that prefix stripped (its first four
characters dropped, which is what `strip_prefix` yields after a positive
`starts_with` test) and `.` prepended. -/
def dotTransform (file_name : String) : String :=
  if strStartsWith file_name "dot_" then "." ++ file_name.drop 4 else file_name

/-- Model of `Content::from_source`: destination is the parent of the source
with the transformed file name pushed; `none` models the process abort on an
invalid kind string. -/
def Content.from_source (path : Path) (kind : Option String) : Option Content :=
  match ContentKind.from_str_opt kind with
  | none => none
  | some k =>
    some { source := path
           destination := path.dropLast ++ [dotTransform (path.getLastD "")]
           kind := k
           dependencies := [] }

/-- Splitting a character list on `/` (accumulator holds the current
component reversed). -/
def pathOfCharsAux : List Char → List Char → List String
  | [], acc => [String.mk acc.reverse]
  | c :: rest, acc =>
    if c = '/' then String.mk acc.reverse :: pathOfCharsAux rest []
    else pathOfCharsAux rest (c :: acc)

/-- Conversion of a configuration string to a path (model of
`PathBuf::from(string)` for the slash-separated relative strings this
configuration uses; the empty string is the empty path). -/
def Path.ofString (s : String) : Path :=
  if s = "" then [] else pathOfCharsAux s.data []

/-- Rendering of a path back to a string (model of `to_string_lossy` /
`to_str` on the paths above). -/
def Path.toStr (p : Path) : String :=
  String.intercalate "/" p

/-! ## Filesystem model and `fs_helpers` -/

/-- Outcome of `fs::read_to_string` on a configuration file (an input of the
model). -/
inductive FileReadResult where
  | found (content : String)
  | notFound
  | ioFailure (e : IoErrorInfo)
deriving DecidableEq

/-- Model of `fs_helpers::read_to_string_with_default`: a missing file is not
an error, it yields the empty document text and the `is_default` flag; any
other I/O failure propagates. -/
def read_to_string_with_default : FileReadResult → Except SkelErr (String × Bool)
  | .found content => .ok (content, false)
  | .notFound => .ok ("", true)
  | .ioFailure e => .error (.ioError e)

/-- Input model of a directory tree under the content root.  A directory is
given as the sequence its `read_dir` iterator yields (`nil` ends the
sequence): `unreadable` means the `read_dir` call itself failed, `broken` is
an iterator item whose `entry?` fails, `file` a plain file, and `dir` a
subdirectory carrying its own contents. -/
inductive DirContents where
  | unreadable
  | nil
  | broken (e : IoErrorInfo) (rest : DirContents)
  | file (name : String) (rest : DirContents)
  | dir (name : String) (sub : DirContents) (rest : DirContents)
deriving DecidableEq

/-- The skip rule of `read_tree`: hidden names and `node_modules` are pruned
from recursion and output. -/
def skipName (name : String) : Bool :=
  strStartsWith name "." || name == "node_modules"

/-- The entry loop of `fs_helpers::read_tree` on one directory: a failing
`read_dir` yields an empty listing (`Err(_) => return Ok(result)`), while an
error on an entry of a readable directory propagates (`let entry = entry?`).
Files are pushed with their root-relative paths, subdirectories are recursed
and — as every recursive `read_tree` call does before returning — their
results sorted by parent directory then file name, skipped names are
pruned. -/
def readEntries (pfx : Path) : DirContents → Except IoErrorInfo (List Path)
  | .unreadable => .ok []
  | .nil => .ok []
  | .broken e _ => .error e
  | .file name rest =>
    match readEntries pfx rest with
    | .error e => .error e
    | .ok tail => .ok (if skipName name then tail else (pfx ++ [name]) :: tail)
  | .dir name sub rest =>
    if skipName name then readEntries pfx rest
    else
      match readEntries (pfx ++ [name]) sub with
      | .error e => .error e
      | .ok sub2 =>
        match readEntries pfx rest with
        | .error e => .error e
        | .ok tail => .ok (sortByB pathLE sub2 ++ tail)

/-- Model of the `read_tree(&root, &root)` call in
`SkeletonConfig::read_from`: list the tree under the content root with
root-relative paths, sorted (per level) by parent directory then file
name. -/
def read_tree (dir : DirContents) : Except IoErrorInfo (List Path) :=
  match readEntries [] dir with
  | .error e => .error e
  | .ok result => .ok (sortByB pathLE result)

/-! ## Tasks -/

/-- Model of `TaskStep` (the `Env` map is an association list). -/
inductive TaskStep where
  | env (vars : List (String × String))
  | exec (command : String) (args : List String)
  | task (name : String) (args : List String)
deriving DecidableEq

/-- Model of `Task`. -/
structure Task where
  name : String
  steps : List TaskStep
deriving DecidableEq

/-- Collection of one `env` node's entries: every named entry lands in the
step's map (insert overwrites), positional entries are ignored. -/
def envVars (entries : List KdlEntry) : List (String × String) :=
  entries.foldl
    (fun vars e =>
      match e.name with
      | some n => insertKV vars n (kdl_entry_to_string e)
      | none => vars)
    []

/-- The entry loop shared by `exec` and nested `task` nodes in
`Task::from_kdl_document`: named entries are skipped; while the accumulated
command is the empty string the next positional entry must be a string (a
non-string yields a missing-argument error) and becomes the command; once the
command is a nonempty string every further positional entry is stringified
into an argument. -/
def execFold : List KdlEntry → String × List String → Except SkelErr (String × List String)
  | [], acc => .ok acc
  | e :: rest, acc =>
    if e.name.isSome then execFold rest acc
    else if acc.1 = "" then
      match e.value.as_string? with
      | some v => execFold rest (v, acc.2)
      | none => .error (.configError .missingArgument)
    else execFold rest (acc.1, acc.2 ++ [kdl_entry_to_string e])

/-- The node loop of `Task::from_kdl_document`: each `env` / `exec` / `task`
node becomes one step in encounter order, any other node name is ignored. -/
def taskStepsOfNodes : List KdlNode → List TaskStep → Except SkelErr (List TaskStep)
  | [], steps => .ok steps
  | node :: rest, steps =>
    if node.name = "env" then
      taskStepsOfNodes rest (steps ++ [.env (envVars node.entries)])
    else if node.name = "exec" then
      match execFold node.entries ("", []) with
      | .error e => .error e
      | .ok (command, args) => taskStepsOfNodes rest (steps ++ [.exec command args])
    else if node.name = "task" then
      match execFold node.entries ("", []) with
      | .error e => .error e
      | .ok (t, args) => taskStepsOfNodes rest (steps ++ [.task t args])
    else taskStepsOfNodes rest steps

/-- Model of `Task::from_kdl_document`. -/
def Task.from_kdl_document (doc : KdlDocument) (name : String) : Except SkelErr Task :=
  match taskStepsOfNodes doc.nodes [] with
  | .error e => .error e
  | .ok steps => .ok { name := name, steps := steps }

/-! ## `kdl_helpers` on whole documents -/

/-- Model of `kdl_helpers::first_string_arg` (the `FnOnce` default closure is
modelled by an already-evaluated `Except` value). -/
def first_string_arg (document : KdlDocument) (name : String)
    (default : Except SkelErr String) : Except SkelErr String :=
  match document.get name with
  | some node =>
    match node.getArg 0 with
    | some entry =>
      match entry.value.as_string? with
      | some value => .ok value
      | none => .error (.configError .invalidString)
    | none => .error (.configError .missingArgument)
  | none => default

/-- Variable bindings (model of `tera::Context`). -/
abbrev Ctx := List (String × TeraValue)

/-- The child loop of `variables_from_kdl_document`: each child node binds its
name to its first positional entry's value; a child with no positional entry
is a missing-argument error. -/
def variablesOfNodes : List KdlNode → Ctx → Except SkelErr Ctx
  | [], vars => .ok vars
  | node :: rest, vars =>
    match node.getArg 0 with
    | none => .error (.configError .missingArgument)
    | some entry =>
      variablesOfNodes rest (insertKV vars node.name (kdl_entry_to_tera_value entry))

/-- Model of `kdl_helpers::variables_from_kdl_document`: a document with no
`variables` node, or a `variables` node with no children block, yields the
empty binding set. -/
def variables_from_kdl_document (doc : KdlDocument) : Except SkelErr Ctx :=
  match doc.get "variables" with
  | none => .ok []
  | some node =>
    match node.children with
    | none => .ok []
    | some children => variablesOfNodes children.nodes []

/-! ## Layer loaders -/

/-- One step of the `task` node loop in `SkeletonConfig::read_from` and
`ProjectConfig::read_from` (the two copies in the source are identical): the
name argument is validated first; a node without a children block contributes
nothing to the task table. -/
def readTasksStep (tasks : List (String × Task)) (node : KdlNode) :
    Except SkelErr (List (String × Task)) :=
  if node.name ≠ "task" then .ok tasks
  else
    match node.getArg 0 with
    | some e =>
      match e.value.as_string? with
      | some name =>
        match node.children with
        | some children =>
          match Task.from_kdl_document children name with
          | .error err => .error err
          | .ok task => .ok (insertKV tasks name task)
        | none => .ok tasks
      | none => .error (.configError .invalidString)
    | none => .error (.configError .missingArgument)

/-- The whole `task` node loop over a document's top-level nodes. -/
def readTasksLoop (tasks : List (String × Task)) : List KdlNode →
    Except SkelErr (List (String × Task))
  | [] => .ok tasks
  | node :: rest =>
    match readTasksStep tasks node with
    | .error e => .error e
    | .ok tasks' => readTasksLoop tasks' rest

/-- Model of `ProjectConfig`. -/
structure ProjectConfig where
  root : Path
  skeleton : Path
  vars : Ctx
  tasks : List (String × Task)
  is_default : Bool
deriving DecidableEq

/-- The document-processing stage of `ProjectConfig::read_from`. -/
def ProjectConfig.ofDocument (path : Path) (document : KdlDocument)
    (is_default : Bool) : Except SkelErr ProjectConfig :=
  match first_string_arg document "root" (.ok (Path.toStr path.dropLast)) with
  | .error e => .error e
  | .ok root_str =>
    let root := Path.ofString root_str
    match first_string_arg document "skeleton"
        (.ok (Path.toStr (root ++ [".skeleton"]))) with
    | .error e => .error e
    | .ok skeleton_str =>
      let skeleton := Path.ofString skeleton_str
      match variables_from_kdl_document document with
      | .error e => .error e
      | .ok vars =>
        match readTasksLoop [] document.nodes with
        | .error e => .error e
        | .ok tasks => .ok { root, skeleton, vars, tasks, is_default }

/-- Model of `ProjectConfig::read_from`; the filesystem read and the external
KDL parser are inputs (`file`, `parse`). -/
def ProjectConfig.read_from (path : Path) (file : FileReadResult)
    (parse : String → Except KdlErrorInfo KdlDocument) :
    Except SkelErr ProjectConfig :=
  match read_to_string_with_default file with
  | .error e => .error e
  | .ok (config_content, is_default) =>
    match parse config_content with
    | .error e => .error (.kdlError e)
    | .ok document => ProjectConfig.ofDocument path document is_default

/-- Insertion of the scanned tree into the content map
(`Content::from_source(source, None)` never aborts, but the abort case is kept
faithful to the call shape). -/
def scanInsertLoop : List Path → List (Path × Content) → Except SkelErr (List (Path × Content))
  | [], content => .ok content
  | source :: rest, content =>
    match Content.from_source source none with
    | some c => scanInsertLoop rest (insertKV content source c)
    | none => .error (.panicked "invalid content kind")

/-- The `depends_on` entry loop of `SkeletonConfig::read_from`: named entries
are skipped; each positional entry is `as_string().unwrap()`ed — a non-string
value is a process abort — and appended to the entry's dependency list. -/
def depsEntriesLoop (skey : Path) :
    List KdlEntry → List (Path × Content) → Except SkelErr (List (Path × Content))
  | [], content => .ok content
  | e :: rest, content =>
    if e.name.isSome then depsEntriesLoop skey rest content
    else
      match e.value.as_string? with
      | some v =>
        depsEntriesLoop skey rest
          (updateKV content skey
            (fun c => { c with dependencies := c.dependencies ++ [Path.ofString v] }))
      | none => .error (.panicked "as_string unwrap on depends_on entry")

/-- The child loop of one `content` node: `destination` re-runs
`first_string_arg` against the children document and `.unwrap()`s the result
(an error there — no positional argument, or a non-string one — is a process
abort); `depends_on` runs the entry loop; unknown child names are ignored. -/
def contentChildrenLoop (children : KdlDocument) (skey : Path) :
    List KdlNode → List (Path × Content) → Except SkelErr (List (Path × Content))
  | [], content => .ok content
  | child :: rest, content =>
    if child.name = "destination" then
      match first_string_arg children "destination" (.ok "default") with
      | .ok destination =>
        contentChildrenLoop children skey rest
          (updateKV content skey (fun c => { c with destination := Path.ofString destination }))
      | .error _ => .error (.panicked "unwrap on first_string_arg for destination")
    else if child.name = "depends_on" then
      match depsEntriesLoop skey child.entries content with
      | .error e => .error e
      | .ok content' => contentChildrenLoop children skey rest content'
    else contentChildrenLoop children skey rest content

/-- The `content` node loop of `SkeletonConfig::read_from`: the source
argument is validated (missing → missing-argument, non-string → invalid
string, unknown key → missing source), then the children are applied. -/
def contentNodesLoop : List KdlNode → List (Path × Content) → Except SkelErr (List (Path × Content))
  | [], content => .ok content
  | node :: rest, content =>
    if node.name ≠ "content" then contentNodesLoop rest content
    else
      match node.getArg 0 with
      | none => .error (.configError .missingArgument)
      | some entry =>
        match entry.value.as_string? with
        | none => .error (.configError .invalidString)
        | some source =>
          let skey := Path.ofString source
          match lookupKV content skey with
          | none => .error (.configError .missingSource)
          | some _ =>
            match node.children with
            | none => contentNodesLoop rest content
            | some children =>
              match contentChildrenLoop children skey children.nodes content with
              | .error e => .error e
              | .ok content' => contentNodesLoop rest content'

/-- Model of `SkeletonConfig`. -/
structure SkeletonConfig where
  root : Path
  content : List (Path × Content)
  tasks : List (String × Task)
  vars : Ctx
  is_default : Bool
deriving DecidableEq

/-- The document-processing stage of `SkeletonConfig::read_from` (the
directory scan happens between the task loop and the content-node loop, as in
the source). -/
def SkeletonConfig.ofDocument (path : Path) (document : KdlDocument)
    (is_default : Bool) (dir : DirContents) : Except SkelErr SkeletonConfig :=
  let root := path.dropLast ++ ["content"]
  match readTasksLoop [] document.nodes with
  | .error e => .error e
  | .ok tasks =>
    match read_tree dir with
    | .error e => .error (.ioError e)
    | .ok content_tree =>
      match scanInsertLoop content_tree [] with
      | .error e => .error e
      | .ok content0 =>
        match contentNodesLoop document.nodes content0 with
        | .error e => .error e
        | .ok content =>
          match variables_from_kdl_document document with
          | .error e => .error e
          | .ok vars => .ok { root, content, tasks, vars, is_default }

/-- Model of `SkeletonConfig::read_from`; the filesystem reads (`file` for the
configuration text, `dir` for the content root's directory tree) and the KDL
parser are inputs. -/
def SkeletonConfig.read_from (path : Path) (file : FileReadResult)
    (parse : String → Except KdlErrorInfo KdlDocument) (dir : DirContents) :
    Except SkelErr SkeletonConfig :=
  match read_to_string_with_default file with
  | .error e => .error e
  | .ok (config_content, is_default) =>
    match parse config_content with
    | .error e => .error (.kdlError e)
    | .ok document => SkeletonConfig.ofDocument path document is_default dir

/-! ## The merged skeleton -/

/-- Model of `Skeleton`. -/
structure Skeleton where
  project : Path
  skeleton : Path
  content : List (Path × Content)
  vars : Ctx
  tasks : List (String × Task)
deriving DecidableEq

/-- Model of `Skeleton::from_config_file`: load the per-project layer, load
the shared layer from `<skeleton>/skeleton.kdl`, then merge — variables and
tasks are built by inserting the shared layer's entries and then the
per-project layer's entries into fresh maps; content comes from the shared
layer verbatim. -/
def Skeleton.from_config_file (config_file : Path)
    (projFile skelFile : FileReadResult)
    (parse : String → Except KdlErrorInfo KdlDocument) (dir : DirContents) :
    Except SkelErr Skeleton :=
  match ProjectConfig.read_from config_file projFile parse with
  | .error e => .error e
  | .ok project_config =>
    match SkeletonConfig.read_from
        (project_config.skeleton ++ ["skeleton.kdl"]) skelFile parse dir with
    | .error e => .error e
    | .ok skeleton_config =>
      let vars := extendKV (extendKV [] skeleton_config.vars) project_config.vars
      let tasks := extendKV (extendKV [] skeleton_config.tasks) project_config.tasks
      .ok { project := project_config.root
            skeleton := project_config.skeleton
            content := skeleton_config.content
            vars := vars
            tasks := tasks }

/-! ## The dependency resolver (`SkeletonConfig::calculate`) -/

/-- A content table: the association-list model of `self.content`. -/
abbrev ContentTable := List (Path × Content)

/-- The keys of a content table. -/
def keysOf (t : ContentTable) : List Path := t.map Prod.fst

/-- The dependency list of a key in a table (empty for unknown keys). -/
def depsOf (t : ContentTable) (k : Path) : List Path :=
  match lookupKV t k with
  | some c => c.dependencies
  | none => []

/-- The content stored for a key; all uses are at keys of the table, the
default only makes the function total. -/
def getC (t : ContentTable) (k : Path) : Content :=
  (lookupKV t k).getD default

/-- A map from keys to lists of keys (the `dependencies` / `dependents` hash
maps inside `calculate`). -/
abbrev MapP := List (Path × List Path)

/-- The reverse-edge registration for one key: push `key` onto
`dependents[dep]` for every listed dependency; a dependency that is not a key
of the map is the `dependents.get_mut(dep).unwrap()` panic, modelled
`none`. -/
def pushDependents (key : Path) : List Path → MapP → Option MapP
  | [], m => some m
  | d :: rest, m =>
    match lookupKV m d with
    | none => none
    | some _ => pushDependents key rest (updateKV m d (fun l => l ++ [key]))

/-- The map-building loop of `calculate`: each key's entry of the
`dependencies` map is extended with its dependency list, and the reverse
edges are pushed into the `dependents` map. -/
def buildMaps (t : ContentTable) : List Path → MapP × MapP → Option (MapP × MapP)
  | [], ms => some ms
  | key :: rest, (deps, depnts) =>
    match lookupKV t key with
    | none => none
    | some c =>
      match pushDependents key c.dependencies depnts with
      | none => none
      | some depnts' =>
        buildMaps t rest (updateKV deps key (fun l => l ++ c.dependencies), depnts')

/-- The mutable state of the emission loop. -/
structure CalcState where
  result : List Content
  deps : MapP
  remaining : List Path
deriving DecidableEq

/-- Removal of an emitted key from the dependency lists of all its dependents
(`retain(|name| name != key)`); a dependent absent from the map would be an
`unwrap` panic, modelled `none`. -/
def removeFromDependents (key : Path) : List Path → MapP → Option MapP
  | [], deps => some deps
  | d :: rest, deps =>
    match lookupKV deps d with
    | none => none
    | some _ =>
      removeFromDependents key rest
        (updateKV deps d (fun l => l.filter (fun n => decide (n ≠ key))))

/-- One full scan over the snapshot of `remaining` (`for key in
remaining.clone()`): a key whose live dependency list is empty is emitted —
its content pushed to the result, the key removed from `remaining` and from
the dependency lists of all its dependents — and counted. -/
def scanPass (t : ContentTable) (depnts : MapP) :
    List Path → CalcState → Nat → Option (CalcState × Nat)
  | [], s, count => some (s, count)
  | key :: rest, s, count =>
    match lookupKV s.deps key with
    | none => scanPass t depnts rest s count
    | some ds =>
      match lookupKV t key with
      | none => none
      | some c =>
        if ds.isEmpty then
          match lookupKV depnts key with
          | none => none
          | some dl =>
            match removeFromDependents key dl s.deps with
            | none => none
            | some deps' =>
              scanPass t depnts rest
                ⟨s.result ++ [c], deps', s.remaining.filter (fun n => decide (n ≠ key))⟩
                (count + 1)
        else scanPass t depnts rest s count

/-- The outer `while !remaining.is_empty()` loop.  A pass that emits nothing
is the `panic!("dependency loop detected")`, modelled `none`.  Each productive
pass shrinks `remaining`, so `remaining.length` bounds the number of passes;
the fuel-exhausted case (unreachable from `calculate` on well-formed tables)
also answers `none`. -/
def calcLoop (t : ContentTable) (depnts : MapP) : Nat → CalcState → Option (List Content)
  | 0, s => if s.remaining.isEmpty then some s.result else none
  | fuel + 1, s =>
    if s.remaining.isEmpty then some s.result
    else
      match scanPass t depnts s.remaining s 0 with
      | none => none
      | some (s', count) => if count = 0 then none else calcLoop t depnts fuel s'

/-- Model of `SkeletonConfig::calculate`.  `none` models a process abort: the
`panic!("dependency loop detected")` on a cycle, or an `unwrap` panic when a
dependency names no existing content key. -/
def calculate (t : ContentTable) : Option (List Content) :=
  let path_keys := sortByB pathLE (keysOf t)
  let init : MapP := path_keys.map (fun k => (k, []))
  match buildMaps t path_keys (init, init) with
  | none => none
  | some (deps, depnts) => calcLoop t depnts path_keys.length ⟨[], deps, path_keys⟩

/-- `scanPass` instrumented to record the keys it emits, in emission order,
instead of merely counting them (the traversal, tests and state updates are
the same, entry for entry); it makes the per-pass emission order an observable
of the model. -/
def scanPassK (t : ContentTable) (depnts : MapP) :
    List Path → CalcState → List Path → Option (CalcState × List Path)
  | [], s, ks => some (s, ks)
  | key :: rest, s, ks =>
    match lookupKV s.deps key with
    | none => scanPassK t depnts rest s ks
    | some ds =>
      match lookupKV t key with
      | none => none
      | some c =>
        if ds.isEmpty then
          match lookupKV depnts key with
          | none => none
          | some dl =>
            match removeFromDependents key dl s.deps with
            | none => none
            | some deps' =>
              scanPassK t depnts rest
                ⟨s.result ++ [c], deps', s.remaining.filter (fun n => decide (n ≠ key))⟩
                (ks ++ [key])
        else scanPassK t depnts rest s ks

/-- `calcLoop` instrumented with the pass decomposition: alongside the result
it returns, pass by pass, the list of keys each scan emitted. -/
def calcLoopK (t : ContentTable) (depnts : MapP) :
    Nat → CalcState → Option (List Content × List (List Path))
  | 0, s => if s.remaining.isEmpty then some (s.result, []) else none
  | fuel + 1, s =>
    if s.remaining.isEmpty then some (s.result, [])
    else
      match scanPassK t depnts s.remaining s [] with
      | none => none
      | some (s', ks) =>
        if ks.length = 0 then none
        else
          match calcLoopK t depnts fuel s' with
          | none => none
          | some (r, passes) => some (r, ks :: passes)

/-- `calculate` instrumented with its pass decomposition. -/
def calculateK (t : ContentTable) : Option (List Content × List (List Path)) :=
  let path_keys := sortByB pathLE (keysOf t)
  let init : MapP := path_keys.map (fun k => (k, []))
  match buildMaps t path_keys (init, init) with
  | none => none
  | some (deps, depnts) => calcLoopK t depnts path_keys.length ⟨[], deps, path_keys⟩

/-- Validity of a table's dependencies: every listed dependency names an
existing content key. -/
def DepsValid (t : ContentTable) : Prop :=
  ∀ p ∈ t, ∀ d ∈ p.2.dependencies, d ∈ keysOf t

/-- The dependency edge relation of a table: `dep t a b` holds when `b` is
listed in `a`'s dependencies. -/
def dep (t : ContentTable) (a b : Path) : Prop :=
  b ∈ depsOf t a

/-- A dependency cycle: some key reaches itself through one or more
dependency edges. -/
def HasCycle (t : ContentTable) : Prop :=
  ∃ k, Relation.TransGen (dep t) k k

/-- Absence of dependency cycles. -/
def NoCycle (t : ContentTable) : Prop := ¬ HasCycle t

/-! ## The emission-loop invariant -/

/-- Boolean list membership via decidable equality (used in specifications so
that all occurrences share one decision procedure). -/
def memB {α : Type} [DecidableEq α] (a : α) : List α → Bool
  | [] => false
  | b :: rest => if b = a then true else memB a rest

/-- A topologically ordered key sequence: every dependency of the i-th key
occurs among the first i keys. -/
def TopoOrdered (t : ContentTable) (l : List Path) : Prop :=
  ∀ i (hi : i < l.length), ∀ d ∈ depsOf t (l.get ⟨i, hi⟩), d ∈ l.take i

/-- The fixed context of the emission loop: `K` enumerates the table's keys
(sorted) and `P` is the dependents map built by `buildMaps`. -/
structure CalcCtx (t : ContentTable) (K : List Path) (P : MapP) : Prop where
  kperm : K.Perm (keysOf t)
  knd : K.Nodup
  valid : DepsValid t
  pdom : ∀ k, (lookupKV P k).isSome = true ↔ k ∈ K
  psub : ∀ q l, lookupKV P q = some l → ∀ j ∈ l, j ∈ K
  pcomp : ∀ j ∈ K, ∀ d ∈ depsOf t j, ∀ l, lookupKV P d = some l → j ∈ l

/-- The loop invariant of `calculate`'s emission phase, relating the state to
the sorted key list `K` and the already-emitted key list `em`. -/
structure CalcInv (t : ContentTable) (K : List Path) (s : CalcState) (em : List Path) : Prop where
  dom : ∀ k, (lookupKV s.deps k).isSome = true ↔ k ∈ K
  char : ∀ k ∈ K, lookupKV s.deps k =
    some ((depsOf t k).filter (fun d => memB d s.remaining))
  rem_sub : ∀ k ∈ s.remaining, k ∈ K
  rem_nd : s.remaining.Nodup
  res : s.result = em.map (getC t)
  perm : (em ++ s.remaining).Perm K
  order : TopoOrdered t em

/-- Membership of the strongly connected component of `k` that witnesses a
cycle: reachable from `k` and reaching `k`. -/
def cycClosure (t : ContentTable) (k x : Path) : Prop :=
  Relation.TransGen (dep t) k x ∧ Relation.TransGen (dep t) x k

/-! ## Concrete witness tables -/

/-- A content value for witness tables. -/
def wContent (src : Path) (deps : List Path) : Content :=
  { source := src, destination := src, kind := .file, dependencies := deps }

/-- One entry, no dependencies. -/
def c1Table : ContentTable := [(["c"], wContent ["c"] [])]

/-- Two entries, one depending on the other, in two insertion orders. -/
def c2TableA : ContentTable :=
  [(["a"], wContent ["a"] []), (["b"], wContent ["b"] [["a"]])]

/-- The same table as `c2TableA` with the entries swapped. -/
def c2TableB : ContentTable :=
  [(["b"], wContent ["b"] [["a"]]), (["a"], wContent ["a"] [])]

/-- Two entries that mutually depend on each other. -/
def c3Table : ContentTable :=
  [(["a"], wContent ["a"] [["b"]]), (["b"], wContent ["b"] [["a"]])]

/-- The per-project layer loaded from a missing `/p/.skeleton.kdl`. -/
def c4pc : ProjectConfig :=
  { root := ["p"], skeleton := ["p", ".skeleton"], vars := [], tasks := [],
    is_default := true }

/-- The shared layer loaded from a missing `skeleton.kdl` over an unreadable
content directory. -/
def c4sc : SkeletonConfig :=
  { root := ["p", ".skeleton", "content"], content := [], tasks := [], vars := [],
    is_default := true }

/-- The merge of `c4pc` and `c4sc`. -/
def c4m : Skeleton :=
  { project := ["p"], skeleton := ["p", ".skeleton"], content := [], vars := [],
    tasks := [] }

/-! ## C5: missing configuration files -/

/-- The content record that the directory scan inserts for a scanned source
path (a `Content::from_source` with no explicit kind). -/
def defaultContent (src : Path) : Content :=
  { source := src
    destination := src.dropLast ++ [dotTransform (src.getLastD "")]
    kind := .file
    dependencies := [] }

/-! ## C7: `exec` node parsing -/

/-- Characterization of the `exec` entry loop, written from the amended spec's
words: named entries are ignored; positional entries carrying the empty string
are consumed while the command slot is unset; the first positional entry with
a nonempty string value becomes the command and every later positional entry
is stringified into an argument; a positional entry with a non-string value
while the command slot is unset is a missing-argument error; and a node whose
positional entries never set the command yields the empty command with no
arguments (not an error). -/
def execSpecSplit : List KdlEntry → Except SkelErr (String × List String)
  | [] => .ok ("", [])
  | e :: rest =>
    if e.name.isSome then execSpecSplit rest
    else
      match e.value.as_string? with
      | none => .error (.configError .missingArgument)
      | some v =>
        if v = "" then execSpecSplit rest
        else .ok (v, (rest.filter (fun e2 => e2.name.isNone)).map kdl_entry_to_string)

/-! ## Theorems -/

theorem collate_lt_iff (a b : String) : collate a b = .lt ↔ a < b := by
  unfold collate
  split_ifs with h1 h2 <;> simp [h1]

theorem collate_gt_iff (a b : String) : collate a b = .gt ↔ b < a := by
  unfold collate
  split_ifs with h1 h2
  · simp [lt_asymm h1]
  · simp [h2]
  · simp [h2]

theorem collate_eq_iff (a b : String) : collate a b = .eq ↔ a = b := by
  unfold collate
  split_ifs with h1 h2
  · simp [ne_of_lt h1]
  · simp [(ne_of_lt h2).symm]
  · simp [le_antisymm (not_lt.mp h2) (not_lt.mp h1)]

theorem collate_swap (a b : String) : collate b a = (collate a b).swap := by
  unfold collate
  split_ifs with h1 h2 <;>
    first
      | rfl
      | exact absurd (lt_trans h1 h2) (lt_irrefl _)

theorem collateList_eq_iff (xs ys : List String) :
    collateList xs ys = .eq ↔ xs = ys := by
  induction xs generalizing ys with
  | nil => cases ys <;> simp [collateList]
  | cons x xs ih =>
    cases ys with
    | nil => simp [collateList]
    | cons y ys =>
      simp only [collateList]
      rcases h : collate x y with _ | _ | _
      · rw [collate_lt_iff] at h
        simp [ne_of_lt h]
      · rw [collate_eq_iff] at h
        subst h
        simp [ih]
      · rw [collate_gt_iff] at h
        simp [(ne_of_lt h).symm]

theorem collateList_swap (xs ys : List String) :
    collateList ys xs = (collateList xs ys).swap := by
  induction xs generalizing ys with
  | nil => cases ys <;> rfl
  | cons x xs ih =>
    cases ys with
    | nil => rfl
    | cons y ys =>
      simp only [collateList]
      rw [collate_swap x y]
      rcases h : collate x y with _ | _ | _ <;> simp [Ordering.swap, ih]

theorem collateList_lt_trans {xs ys zs : List String}
    (h1 : collateList xs ys = .lt) (h2 : collateList ys zs = .lt) :
    collateList xs zs = .lt := by
  induction xs generalizing ys zs with
  | nil =>
    cases ys with
    | nil => exact h2
    | cons y ys =>
      cases zs with
      | nil => exact absurd h2 (by simp [collateList])
      | cons z zs => rfl
  | cons x xs ih =>
    cases ys with
    | nil => exact absurd h1 (by simp [collateList])
    | cons y ys =>
      cases zs with
      | nil => exact absurd h2 (by simp [collateList])
      | cons z zs =>
        simp only [collateList] at h1 h2 ⊢
        rcases hxy : collate x y with _ | _ | _ <;> rw [hxy] at h1
        · rcases hyz : collate y z with _ | _ | _ <;> rw [hyz] at h2
          · rw [collate_lt_iff] at hxy
            rw [collate_lt_iff] at hyz
            rw [(collate_lt_iff x z).mpr (lt_trans hxy hyz)]
          · rw [collate_eq_iff] at hyz
            subst hyz
            rw [hxy]
          · exact absurd h2 (by simp)
        · rw [collate_eq_iff] at hxy
          subst hxy
          rcases hyz : collate x z with _ | _ | _
          · rfl
          · rw [hyz] at h2
            exact ih h1 h2
          · rw [hyz] at h2
            exact h2
        · exact absurd h1 (by simp)

theorem dropLast_append_lastPart {α : Type} (l : List α) :
    l.dropLast ++ l.drop (l.length - 1) = l := by
  rw [List.dropLast_eq_take]
  exact List.take_append_drop _ l

theorem pathCmp_eq_iff (a b : Path) : pathCmp a b = .eq ↔ a = b := by
  constructor
  · intro h
    unfold pathCmp at h
    rcases h1 : collateList a.dropLast b.dropLast with _ | _ | _ <;> rw [h1] at h
    · exact Ordering.noConfusion h
    · have h' : collateList (a.drop (a.length - 1)) (b.drop (b.length - 1)) = .eq := h
      rw [collateList_eq_iff] at h' h1
      have ha := dropLast_append_lastPart a
      rw [h1, h', dropLast_append_lastPart] at ha
      exact ha.symm
    · exact Ordering.noConfusion h
  · intro h
    subst h
    unfold pathCmp
    rw [(collateList_eq_iff _ _).mpr rfl]
    exact (collateList_eq_iff _ _).mpr rfl

theorem pathCmp_swap (a b : Path) : pathCmp b a = (pathCmp a b).swap := by
  unfold pathCmp
  rw [collateList_swap a.dropLast b.dropLast,
    collateList_swap (a.drop (a.length - 1)) (b.drop (b.length - 1))]
  rcases h : collateList a.dropLast b.dropLast with _ | _ | _ <;> rfl

theorem pathCmp_lt_trans {a b c : Path}
    (h1 : pathCmp a b = .lt) (h2 : pathCmp b c = .lt) : pathCmp a c = .lt := by
  unfold pathCmp at h1 h2 ⊢
  rcases hab : collateList a.dropLast b.dropLast with _ | _ | _ <;> rw [hab] at h1
  · rcases hbc : collateList b.dropLast c.dropLast with _ | _ | _ <;> rw [hbc] at h2
    · rw [collateList_lt_trans hab hbc]
    · rw [collateList_eq_iff] at hbc
      rw [← hbc, hab]
    · exact Ordering.noConfusion h2
  · rw [collateList_eq_iff] at hab
    have h1' : collateList (a.drop (a.length - 1)) (b.drop (b.length - 1)) = .lt := h1
    rcases hbc : collateList b.dropLast c.dropLast with _ | _ | _ <;> rw [hbc] at h2
    · rw [hab, hbc]
    · have h2' : collateList (b.drop (b.length - 1)) (c.drop (c.length - 1)) = .lt := h2
      rw [hab, hbc]
      exact collateList_lt_trans h1' h2'
    · exact Ordering.noConfusion h2
  · exact Ordering.noConfusion h1

theorem pathLE_total (a b : Path) : pathLE a b = true ∨ pathLE b a = true := by
  unfold pathLE
  rcases h : pathCmp a b with _ | _ | _
  · exact Or.inl rfl
  · exact Or.inl rfl
  · right
    rw [pathCmp_swap a b, h]
    decide

theorem pathLE_antisymm {a b : Path}
    (h1 : pathLE a b = true) (h2 : pathLE b a = true) : a = b := by
  unfold pathLE at h1 h2
  rcases h : pathCmp a b with _ | _ | _
  · rw [pathCmp_swap a b, h] at h2
    exact Bool.noConfusion h2
  · exact (pathCmp_eq_iff a b).mp h
  · rw [h] at h1
    exact Bool.noConfusion h1

theorem pathLE_trans {a b c : Path}
    (h1 : pathLE a b = true) (h2 : pathLE b c = true) : pathLE a c = true := by
  unfold pathLE at h1 h2 ⊢
  rcases hab : pathCmp a b with _ | _ | _ <;> rw [hab] at h1
  · rcases hbc : pathCmp b c with _ | _ | _ <;> rw [hbc] at h2
    · rw [pathCmp_lt_trans hab hbc]
    · rw [← (pathCmp_eq_iff b c).mp hbc, hab]
    · exact Bool.noConfusion h2
  · rw [(pathCmp_eq_iff a b).mp hab]
    exact h2
  · exact Bool.noConfusion h1

theorem orderedInsertB_perm {α : Type} (le : α → α → Bool) (a : α) (l : List α) :
    (orderedInsertB le a l).Perm (a :: l) := by
  induction l with
  | nil => exact List.Perm.refl _
  | cons b t ih =>
    by_cases h : le a b = true
    · simp only [orderedInsertB, if_pos h]
      exact List.Perm.refl _
    · simp only [orderedInsertB, if_neg h]
      exact (List.Perm.cons b ih).trans (List.Perm.swap a b t)

theorem sortByB_perm {α : Type} (le : α → α → Bool) (l : List α) :
    (sortByB le l).Perm l := by
  induction l with
  | nil => exact List.Perm.refl _
  | cons a t ih =>
    exact (orderedInsertB_perm le a (sortByB le t)).trans (List.Perm.cons a ih)

theorem orderedInsertB_sorted {α : Type} (le : α → α → Bool)
    (hto : ∀ a b, le a b = true ∨ le b a = true)
    (htr : ∀ a b c, le a b = true → le b c = true → le a c = true)
    (a : α) (l : List α) (hs : List.Sorted (fun x y => le x y = true) l) :
    List.Sorted (fun x y => le x y = true) (orderedInsertB le a l) := by
  induction l with
  | nil => simp [orderedInsertB]
  | cons b t ih =>
    rcases List.sorted_cons.mp hs with ⟨hb, ht⟩
    by_cases h : le a b = true
    · simp only [orderedInsertB, if_pos h]
      refine List.sorted_cons.mpr ⟨?_, hs⟩
      intro x hx
      rcases List.mem_cons.mp hx with rfl | hx2
      · exact h
      · exact htr a b x h (hb x hx2)
    · simp only [orderedInsertB, if_neg h]
      refine List.sorted_cons.mpr ⟨?_, ih ht⟩
      intro x hx
      rcases List.mem_cons.mp ((orderedInsertB_perm le a t).mem_iff.mp hx) with rfl | hx2
      · rcases hto x b with hh | hh
        · exact absurd hh h
        · exact hh
      · exact hb x hx2

theorem sortByB_sorted {α : Type} (le : α → α → Bool)
    (hto : ∀ a b, le a b = true ∨ le b a = true)
    (htr : ∀ a b c, le a b = true → le b c = true → le a c = true)
    (l : List α) :
    List.Sorted (fun x y => le x y = true) (sortByB le l) := by
  induction l with
  | nil => simp [sortByB]
  | cons a t ih => exact orderedInsertB_sorted le hto htr a _ ih

/-! ## Lemmas about the association-list maps -/

theorem lookupKV_isSome_iff {α β : Type} [DecidableEq α] (m : List (α × β)) (k : α) :
    (lookupKV m k).isSome ↔ k ∈ m.map Prod.fst := by
  induction m with
  | nil => simp [lookupKV]
  | cons p rest ih =>
    obtain ⟨a, b⟩ := p
    by_cases h : a = k <;> simp [lookupKV, h, ih]
    exact fun he => absurd he.symm h

theorem lookupKV_mem {α β : Type} [DecidableEq α] {m : List (α × β)} {k : α} {v : β}
    (h : lookupKV m k = some v) : (k, v) ∈ m := by
  induction m with
  | nil => exact absurd h (by simp [lookupKV])
  | cons p rest ih =>
    obtain ⟨a, b⟩ := p
    by_cases ha : a = k
    · subst ha
      simp only [lookupKV, if_pos rfl] at h
      injection h with h
      subst h
      exact List.mem_cons_self _ _
    · simp only [lookupKV, if_neg ha] at h
      exact List.mem_cons_of_mem _ (ih h)

theorem mem_lookupKV_of_nodup {α β : Type} [DecidableEq α] {m : List (α × β)} {k : α} {v : β}
    (hnd : (m.map Prod.fst).Nodup) (h : (k, v) ∈ m) : lookupKV m k = some v := by
  induction m with
  | nil => exact absurd h (by simp)
  | cons p rest ih =>
    obtain ⟨a, b⟩ := p
    simp only [List.map_cons, List.nodup_cons] at hnd
    rcases List.mem_cons.mp h with he | hm
    · injection he with h1 h2
      subst h1; subst h2
      simp [lookupKV]
    · have hak : a ≠ k := by
        intro he
        subst he
        exact hnd.1 (List.mem_map_of_mem Prod.fst hm)
      simp only [lookupKV, if_neg hak]
      exact ih hnd.2 hm

theorem lookupKV_eq_none {α β : Type} [DecidableEq α] {m : List (α × β)} {k : α}
    (h : k ∉ m.map Prod.fst) : lookupKV m k = none := by
  rcases he : lookupKV m k with _ | v
  · rfl
  · exact absurd ((lookupKV_isSome_iff m k).mp (by simp [he])) h

theorem lookupKV_updateKV_self {α β : Type} [DecidableEq α] (m : List (α × β)) (k : α)
    (f : β → β) :
    lookupKV (updateKV m k f) k = (lookupKV m k).map f := by
  induction m with
  | nil => simp [lookupKV, updateKV]
  | cons p rest ih =>
    obtain ⟨a, b⟩ := p
    by_cases hak : a = k
    · subst hak
      simp [updateKV, lookupKV]
    · simp only [updateKV, if_neg hak, lookupKV]
      exact ih

theorem lookupKV_updateKV_ne {α β : Type} [DecidableEq α] (m : List (α × β)) (k : α)
    (f : β → β) (q : α) (hq : q ≠ k) :
    lookupKV (updateKV m k f) q = lookupKV m q := by
  induction m with
  | nil => simp [lookupKV, updateKV]
  | cons p rest ih =>
    obtain ⟨a, b⟩ := p
    by_cases hak : a = k
    · subst hak
      have haq : ¬(a = q) := fun he => hq he.symm
      simp only [updateKV, if_pos rfl, lookupKV]
      rw [if_neg haq, if_neg haq]
      exact ih
    · simp only [updateKV, if_neg hak, lookupKV]
      by_cases haq : a = q
      · rw [if_pos haq, if_pos haq]
      · rw [if_neg haq, if_neg haq]
        exact ih

theorem lookupKV_insertKV_self {α β : Type} [DecidableEq α] (m : List (α × β)) (k : α)
    (v : β) :
    lookupKV (insertKV m k v) k = some v := by
  induction m with
  | nil => simp [lookupKV, insertKV]
  | cons p rest ih =>
    obtain ⟨a, b⟩ := p
    by_cases hak : a = k
    · subst hak
      simp [insertKV, lookupKV]
    · simp only [insertKV, if_neg hak, lookupKV]
      exact ih

theorem lookupKV_insertKV_ne {α β : Type} [DecidableEq α] (m : List (α × β)) (k : α)
    (v : β) (q : α) (hq : q ≠ k) :
    lookupKV (insertKV m k v) q = lookupKV m q := by
  induction m with
  | nil =>
    simp only [insertKV, lookupKV]
    rw [if_neg (fun he => hq he.symm)]
  | cons p rest ih =>
    obtain ⟨a, b⟩ := p
    by_cases hak : a = k
    · subst hak
      have haq : ¬(a = q) := fun he => hq he.symm
      simp only [insertKV, if_pos rfl, lookupKV]
      rw [if_neg haq, if_neg haq]
    · simp only [insertKV, if_neg hak, lookupKV]
      by_cases haq : a = q
      · rw [if_pos haq, if_pos haq]
      · rw [if_neg haq, if_neg haq]
        exact ih

theorem keys_updateKV {α β : Type} [DecidableEq α] (m : List (α × β)) (k : α) (f : β → β) :
    (updateKV m k f).map Prod.fst = m.map Prod.fst := by
  induction m with
  | nil => rfl
  | cons p rest ih =>
    obtain ⟨a, b⟩ := p
    by_cases h : a = k <;> simp [updateKV, h, ih]

theorem isSome_lookupKV_updateKV {α β : Type} [DecidableEq α] (m : List (α × β)) (k : α)
    (f : β → β) (q : α) :
    (lookupKV (updateKV m k f) q).isSome = (lookupKV m q).isSome := by
  by_cases h : q = k
  · subst h
    rw [lookupKV_updateKV_self]
    rcases lookupKV m q with _ | v <;> rfl
  · rw [lookupKV_updateKV_ne _ _ _ _ h]

theorem lookupKV_eq_of_perm {α β : Type} [DecidableEq α] {m1 m2 : List (α × β)}
    (hp : m1.Perm m2) (hnd : (m1.map Prod.fst).Nodup) (k : α) :
    lookupKV m1 k = lookupKV m2 k := by
  have hnd2 : (m2.map Prod.fst).Nodup := (hp.map Prod.fst).nodup_iff.mp hnd
  rcases he : lookupKV m1 k with _ | v
  · rcases he2 : lookupKV m2 k with _ | v2
    · rfl
    · exfalso
      have h2 : k ∈ m2.map Prod.fst :=
        (lookupKV_isSome_iff m2 k).mp (by rw [he2]; rfl)
      have h1 : k ∈ m1.map Prod.fst := (hp.map Prod.fst).mem_iff.mpr h2
      have hs := (lookupKV_isSome_iff m1 k).mpr h1
      rw [he] at hs
      exact Bool.noConfusion hs
  · exact (mem_lookupKV_of_nodup hnd2 (hp.subset (lookupKV_mem he))).symm

/-! ## Lemmas about the resolver's map-building phase -/

theorem pushDependents_spec (key : Path) :
    ∀ (ds : List Path) (m : MapP),
      (∀ d ∈ ds, (lookupKV m d).isSome = true) →
      ∃ m', pushDependents key ds m = some m' ∧
        (∀ q, (lookupKV m' q).isSome = (lookupKV m q).isSome) ∧
        (∀ q l', lookupKV m' q = some l' → ∀ j ∈ l',
          (∃ l, lookupKV m q = some l ∧ j ∈ l) ∨ j = key) ∧
        (∀ q l l', lookupKV m q = some l → lookupKV m' q = some l' → ∀ j ∈ l, j ∈ l') ∧
        (∀ d ∈ ds, ∀ l', lookupKV m' d = some l' → key ∈ l') := by
  intro ds
  induction ds with
  | nil =>
    intro m _
    refine ⟨m, rfl, fun q => rfl, ?_, ?_, ?_⟩
    · intro q l' hl' j hj
      exact Or.inl ⟨l', hl', hj⟩
    · intro q l l' hl hl' j hj
      rw [hl] at hl'
      injection hl' with he
      exact he ▸ hj
    · intro d hd
      exact absurd hd (by simp)
  | cons d rest ih =>
    intro m hsome
    have hd0 : (lookupKV m d).isSome = true := hsome d (by simp)
    rcases hl0 : lookupKV m d with _ | l0
    · rw [hl0] at hd0
      exact Bool.noConfusion hd0
    · have hstep : pushDependents key (d :: rest) m =
          pushDependents key rest (updateKV m d (fun l => l ++ [key])) := by
        simp only [pushDependents, hl0]
      set m1 := updateKV m d (fun l => l ++ [key]) with hm1
      have hsome1 : ∀ x ∈ rest, (lookupKV m1 x).isSome = true := by
        intro x hx
        rw [hm1, isSome_lookupKV_updateKV]
        exact hsome x (List.mem_cons_of_mem _ hx)
      obtain ⟨m', heq, hiso, hsound, hmono, helem⟩ := ih m1 hsome1
      have hm1d : lookupKV m1 d = some (l0 ++ [key]) := by
        rw [hm1, lookupKV_updateKV_self, hl0]
        rfl
      have hm1q : ∀ q, q ≠ d → lookupKV m1 q = lookupKV m q := by
        intro q hq
        rw [hm1, lookupKV_updateKV_ne _ _ _ _ hq]
      refine ⟨m', hstep ▸ heq, ?_, ?_, ?_, ?_⟩
      · intro q
        rw [hiso q, hm1, isSome_lookupKV_updateKV]
      · intro q l' hl' j hj
        rcases hsound q l' hl' j hj with ⟨l1, hl1, hjl1⟩ | hk
        · by_cases hqd : q = d
          · subst hqd
            rw [hm1d] at hl1
            injection hl1 with he
            subst he
            rcases List.mem_append.mp hjl1 with h | h
            · exact Or.inl ⟨l0, hl0, h⟩
            · exact Or.inr (List.mem_singleton.mp h)
          · exact Or.inl ⟨l1, (hm1q q hqd) ▸ hl1, hjl1⟩
        · exact Or.inr hk
      · intro q l l' hl hl' j hj
        by_cases hqd : q = d
        · subst hqd
          rw [hl0] at hl
          injection hl with he
          refine hmono q (l0 ++ [key]) l' hm1d hl' j ?_
          exact List.mem_append_left _ (he.symm ▸ hj)
        · exact hmono q l l' ((hm1q q hqd) ▸ hl) hl' j hj
      · intro x hx l' hl'
        rcases List.mem_cons.mp hx with he | hmem
        · subst he
          exact hmono x (l0 ++ [key]) l' hm1d hl' key (List.mem_append_right _ (by simp))
        · exact helem x hmem l' hl'

theorem filter_self_idem {α : Type} (p : α → Bool) (l : List α) :
    (l.filter p).filter p = l.filter p := by
  rw [List.filter_filter]
  exact List.filter_congr (by intro x _; rw [Bool.and_self])

theorem removeFromDependents_spec (key : Path) :
    ∀ (dl : List Path) (deps : MapP),
      (∀ j ∈ dl, (lookupKV deps j).isSome = true) →
      ∃ deps', removeFromDependents key dl deps = some deps' ∧
        ∀ q, lookupKV deps' q =
          if q ∈ dl then
            (lookupKV deps q).map (fun l => l.filter (fun n => decide (n ≠ key)))
          else lookupKV deps q := by
  intro dl
  induction dl with
  | nil =>
    intro deps _
    exact ⟨deps, rfl, fun q => by simp⟩
  | cons d rest ih =>
    intro deps hsome
    have hd0 : (lookupKV deps d).isSome = true := hsome d (by simp)
    rcases hl0 : lookupKV deps d with _ | l0
    · rw [hl0] at hd0
      exact Bool.noConfusion hd0
    · have hstep : removeFromDependents key (d :: rest) deps =
          removeFromDependents key rest
            (updateKV deps d (fun l => l.filter (fun n => decide (n ≠ key)))) := by
        simp only [removeFromDependents, hl0]
      set m1 := updateKV deps d (fun l => l.filter (fun n => decide (n ≠ key))) with hm1
      have hsome1 : ∀ x ∈ rest, (lookupKV m1 x).isSome = true := by
        intro x hx
        rw [hm1, isSome_lookupKV_updateKV]
        exact hsome x (List.mem_cons_of_mem _ hx)
      obtain ⟨deps', heq, hchar⟩ := ih m1 hsome1
      have hm1d : lookupKV m1 d =
          (lookupKV deps d).map (fun l => l.filter (fun n => decide (n ≠ key))) := by
        rw [hm1, lookupKV_updateKV_self]
      have hm1q : ∀ q, q ≠ d → lookupKV m1 q = lookupKV deps q := by
        intro q hq
        rw [hm1, lookupKV_updateKV_ne _ _ _ _ hq]
      refine ⟨deps', hstep ▸ heq, ?_⟩
      intro q
      rw [hchar q]
      by_cases hqrest : q ∈ rest
      · rw [if_pos hqrest, if_pos (List.mem_cons_of_mem _ hqrest)]
        by_cases hqd : q = d
        · subst hqd
          rw [hm1d, Option.map_map]
          rcases lookupKV deps q with _ | l
          · rfl
          · simp [Function.comp, filter_self_idem]
        · rw [hm1q q hqd]
      · rw [if_neg hqrest]
        by_cases hqd : q = d
        · subst hqd
          rw [hm1d, if_pos (List.mem_cons_self _ _)]
        · rw [hm1q q hqd, if_neg (by
            intro hmem
            rcases List.mem_cons.mp hmem with he | hm
            · exact hqd he
            · exact hqrest hm)]

theorem buildMaps_spec (t : ContentTable) :
    ∀ (ks : List Path) (deps depnts : MapP),
      ks.Nodup →
      (∀ k ∈ ks, (lookupKV t k).isSome = true) →
      (∀ k ∈ ks, ∀ d ∈ depsOf t k, (lookupKV depnts d).isSome = true) →
      ∃ D P, buildMaps t ks (deps, depnts) = some (D, P) ∧
        (∀ q, lookupKV D q =
          if q ∈ ks then (lookupKV deps q).map (fun l => l ++ depsOf t q)
          else lookupKV deps q) ∧
        (∀ q, (lookupKV P q).isSome = (lookupKV depnts q).isSome) ∧
        (∀ q l', lookupKV P q = some l' → ∀ j ∈ l',
          (∃ l, lookupKV depnts q = some l ∧ j ∈ l) ∨ j ∈ ks) ∧
        (∀ q l l', lookupKV depnts q = some l → lookupKV P q = some l' → ∀ j ∈ l, j ∈ l') ∧
        (∀ j ∈ ks, ∀ d ∈ depsOf t j, ∀ l', lookupKV P d = some l' → j ∈ l') := by
  intro ks
  induction ks with
  | nil =>
    intro deps depnts _ _ _
    refine ⟨deps, depnts, rfl, fun q => by simp, fun q => rfl, ?_, ?_, ?_⟩
    · intro q l' hl' j hj
      exact Or.inl ⟨l', hl', hj⟩
    · intro q l l' hl hl' j hj
      rw [hl] at hl'
      injection hl' with he
      exact he ▸ hj
    · intro j hj
      exact absurd hj (by simp)
  | cons key rest ih =>
    intro deps depnts hnd htl hpd
    have hkt : (lookupKV t key).isSome = true := htl key (by simp)
    rcases hc : lookupKV t key with _ | c
    · rw [hc] at hkt
      exact Bool.noConfusion hkt
    · have hdeps_eq : depsOf t key = c.dependencies := by
        unfold depsOf
        rw [hc]
      obtain ⟨depnts1, hpush, hiso1, hsound1, hmono1, helem1⟩ :=
        pushDependents_spec key c.dependencies depnts
          (fun d hd => hpd key (by simp) d (hdeps_eq ▸ hd))
      have hstep : buildMaps t (key :: rest) (deps, depnts) =
          buildMaps t rest (updateKV deps key (fun l => l ++ c.dependencies), depnts1) := by
        simp only [buildMaps, hc, hpush]
      set deps1 := updateKV deps key (fun l => l ++ c.dependencies) with hdeps1
      have hnd' := List.nodup_cons.mp hnd
      obtain ⟨D, P, heq, hDchar, hPiso, hPsound, hPmono, hPelem⟩ :=
        ih deps1 depnts1 hnd'.2
          (fun k hk => htl k (List.mem_cons_of_mem _ hk))
          (fun k hk d hd => by
            rw [hiso1 d]
            exact hpd k (List.mem_cons_of_mem _ hk) d hd)
      refine ⟨D, P, hstep ▸ heq, ?_, ?_, ?_, ?_, ?_⟩
      · intro q
        rw [hDchar q]
        by_cases hqrest : q ∈ rest
        · have hqkey : q ≠ key := fun he => hnd'.1 (he ▸ hqrest)
          rw [if_pos hqrest, if_pos (List.mem_cons_of_mem _ hqrest), hdeps1,
            lookupKV_updateKV_ne _ _ _ _ hqkey]
        · rw [if_neg hqrest]
          by_cases hqkey : q = key
          · subst hqkey
            rw [if_pos (List.mem_cons_self _ _), hdeps1, lookupKV_updateKV_self, hdeps_eq]
          · rw [hdeps1, lookupKV_updateKV_ne _ _ _ _ hqkey, if_neg (by
              intro hmem
              rcases List.mem_cons.mp hmem with he | hm
              · exact hqkey he
              · exact hqrest hm)]
      · intro q
        rw [hPiso q, hiso1 q]
      · intro q l' hl' j hj
        rcases hPsound q l' hl' j hj with ⟨l1, hl1, hjl1⟩ | hrest
        · rcases hsound1 q l1 hl1 j hjl1 with ⟨l, hl, hjl⟩ | hkey
          · exact Or.inl ⟨l, hl, hjl⟩
          · exact Or.inr (hkey ▸ List.mem_cons_self _ _)
        · exact Or.inr (List.mem_cons_of_mem _ hrest)
      · intro q l l' hl hl' j hj
        have h1 : (lookupKV depnts1 q).isSome = true := by
          rw [hiso1 q, hl]
          rfl
        rcases hl1 : lookupKV depnts1 q with _ | l1
        · rw [hl1] at h1
          exact Bool.noConfusion h1
        · exact hPmono q l1 l' hl1 hl' j (hmono1 q l l1 hl hl1 j hj)
      · intro j hjmem d hd l' hl'
        rcases List.mem_cons.mp hjmem with he | hm
        · subst he
          have h1 : (lookupKV depnts1 d).isSome = true := by
            rw [hiso1 d]
            exact hpd j (by simp) d hd
          rcases hl1 : lookupKV depnts1 d with _ | l1
          · rw [hl1] at h1
            exact Bool.noConfusion h1
          · have hkey1 : j ∈ l1 := helem1 d (hdeps_eq ▸ hd) l1 hl1
            exact hPmono d l1 l' hl1 hl' j hkey1
        · exact hPelem j hm d hd l' hl'

theorem memB_iff {α : Type} [DecidableEq α] (a : α) (l : List α) :
    memB a l = true ↔ a ∈ l := by
  induction l with
  | nil => simp [memB]
  | cons b rest ih =>
    by_cases h : b = a
    · subst h
      simp [memB]
    · simp only [memB, if_neg h, ih, List.mem_cons]
      constructor
      · exact Or.inr
      · rintro (he | hm)
        · exact absurd he (fun x => h x.symm)
        · exact hm

theorem depsOf_subset {t : ContentTable} (hvalid : DepsValid t) {k d : Path}
    (hd : d ∈ depsOf t k) : d ∈ keysOf t := by
  unfold depsOf at hd
  rcases hc : lookupKV t k with _ | c
  · rw [hc] at hd
    exact absurd hd (by simp)
  · rw [hc] at hd
    exact hvalid (k, c) (lookupKV_mem hc) d hd

theorem mem_keysOf_lookup {t : ContentTable} {k : Path} (h : k ∈ keysOf t) :
    ∃ c, lookupKV t k = some c := by
  have := (lookupKV_isSome_iff t k).mpr h
  rcases hc : lookupKV t k with _ | c
  · rw [hc] at this
    exact Bool.noConfusion this
  · exact ⟨c, rfl⟩

theorem cons_filter_ne_perm {α : Type} [DecidableEq α] {l : List α} {a : α}
    (hnd : l.Nodup) (ha : a ∈ l) :
    (a :: l.filter (fun n => decide (n ≠ a))).Perm l := by
  induction l with
  | nil => cases ha
  | cons b rest ih =>
    have hndr := List.nodup_cons.mp hnd
    rcases List.mem_cons.mp ha with he | hm
    · subst he
      have hfr : List.filter (fun n => !decide (n = a)) rest = rest := by
        refine List.filter_eq_self.mpr ?_
        intro n hn
        have hne : ¬(n = a) := fun he2 => hndr.1 (he2 ▸ hn)
        simp [hne]
      simp [List.filter_cons, hfr]
    · have hba : b ≠ a := fun he => hndr.1 (he ▸ hm)
      have hfc : (b :: rest).filter (fun n => decide (n ≠ a)) =
          b :: rest.filter (fun n => decide (n ≠ a)) := by
        simp [hba]
      rw [hfc]
      exact (List.Perm.swap b a _).trans (List.Perm.cons b (ih hndr.2 hm))

theorem filter_mem_filter {α : Type} [DecidableEq α] (l rem : List α) (p : α → Bool) :
    (l.filter (fun d => memB d rem)).filter p =
      l.filter (fun d => memB d (rem.filter p)) := by
  rw [List.filter_filter]
  refine List.filter_congr ?_
  intro a _
  rw [Bool.eq_iff_iff]
  simp only [Bool.and_eq_true, memB_iff, List.mem_filter]
  constructor
  · rintro ⟨hp, hm⟩
    exact ⟨hm, hp⟩
  · rintro ⟨hm, hp⟩
    exact ⟨hp, hm⟩

/-- The dependency-map update performed when one key is emitted preserves the
domain and turns the "live dependencies" characterization into the one for
the shrunken `remaining`. -/
theorem emit_step {t : ContentTable} {K : List Path} {P : MapP}
    (ctx : CalcCtx t K P) (deps : MapP) (rem : List Path)
    (hdom : ∀ k, (lookupKV deps k).isSome = true ↔ k ∈ K)
    (hchar : ∀ k ∈ K, lookupKV deps k =
      some ((depsOf t k).filter (fun d => memB d rem)))
    {key : Path} {dl : List Path} (hdl : lookupKV P key = some dl) :
    ∃ deps', removeFromDependents key dl deps = some deps' ∧
      (∀ k, (lookupKV deps' k).isSome = true ↔ k ∈ K) ∧
      (∀ k ∈ K, lookupKV deps' k =
        some ((depsOf t k).filter
          (fun d => memB d (rem.filter (fun n => decide (n ≠ key)))))) := by
  have hdlK : ∀ j ∈ dl, j ∈ K := ctx.psub key dl hdl
  obtain ⟨deps', heq, hchar'⟩ :=
    removeFromDependents_spec key dl deps (fun j hj => (hdom j).mpr (hdlK j hj))
  refine ⟨deps', heq, ?_, ?_⟩
  · intro k
    rw [hchar' k]
    by_cases hk : k ∈ dl
    · rw [if_pos hk]
      rw [← hdom k]
      rcases lookupKV deps k with _ | l <;> rfl
    · rw [if_neg hk]
      exact hdom k
  · intro k hkmem
    rw [hchar' k]
    by_cases hk : k ∈ dl
    · rw [if_pos hk, hchar k hkmem]
      simp only [Option.map_some']
      congr 1
      exact filter_mem_filter (depsOf t k) rem (fun n => decide (n ≠ key))
    · rw [if_neg hk, hchar k hkmem]
      have hkey_nodep : key ∉ depsOf t k := by
        intro hdep
        exact hk (ctx.pcomp k hkmem key hdep dl hdl)
      congr 1
      refine List.filter_congr ?_
      intro d hd
      have hdkey : d ≠ key := fun he => hkey_nodep (he ▸ hd)
      rw [Bool.eq_iff_iff]
      simp only [memB_iff, List.mem_filter]
      constructor
      · intro hdr
        exact ⟨hdr, by simp [hdkey]⟩
      · intro hdr
        exact hdr.1

/-- Specification of one full scan over the snapshot of `remaining`: the
invariant is preserved, the emitted keys extend `em`, the counter counts the
emissions, and if some snapshot key had no live dependencies at entry then at
least one key is emitted. -/
theorem scanPass_spec {t : ContentTable} {K : List Path} {P : MapP}
    (ctx : CalcCtx t K P) :
    ∀ (snap : List Path) (s : CalcState) (em : List Path) (count : Nat),
      CalcInv t K s em →
      snap.Nodup →
      (∀ k ∈ snap, k ∈ s.remaining) →
      ∃ s' emNew,
        scanPass t P snap s count = some (s', count + emNew.length) ∧
        CalcInv t K s' (em ++ emNew) ∧
        (∀ k ∈ s'.remaining, k ∈ s.remaining) ∧
        ((∃ k ∈ snap, (depsOf t k).filter (fun d => memB d s.remaining) = []) →
          emNew ≠ []) := by
  intro snap
  induction snap with
  | nil =>
    intro s em count hinv _ _
    refine ⟨s, [], by simp [scanPass], ?_, fun k hk => hk, ?_⟩
    · rw [List.append_nil]
      exact hinv
    · rintro ⟨k, hk, _⟩
      exact absurd hk (by simp)
  | cons key rest ih =>
    intro s em count hinv hnd hsnap
    have hkrem : key ∈ s.remaining := hsnap key (List.mem_cons_self _ _)
    have hkK : key ∈ K := hinv.rem_sub key hkrem
    have hds := hinv.char key hkK
    obtain ⟨c, hc⟩ := mem_keysOf_lookup (ctx.kperm.subset hkK)
    have hndrest := List.nodup_cons.mp hnd
    by_cases hemp : ((depsOf t key).filter (fun d => memB d s.remaining)).isEmpty = true
    · -- the key is emitted
      have hfilnil : (depsOf t key).filter (fun d => memB d s.remaining) = [] :=
        List.isEmpty_iff.mp hemp
      have hdlsome := (ctx.pdom key).mpr hkK
      rcases hdl : lookupKV P key with _ | dl
      · rw [hdl] at hdlsome
        exact absurd hdlsome (by simp)
      obtain ⟨deps', hrm, hdom', hchar'⟩ :=
        emit_step ctx s.deps s.remaining hinv.dom hinv.char hdl
      set s2 : CalcState :=
        ⟨s.result ++ [c], deps', s.remaining.filter (fun n => decide (n ≠ key))⟩ with hs2
      have hstep : scanPass t P (key :: rest) s count = scanPass t P rest s2 (count + 1) := by
        simp only [scanPass, hds, hc, hemp, hdl, hrm, if_true, hs2]
      have hgetkey : getC t key = c := by
        unfold getC
        rw [hc]
        rfl
      have hinv2 : CalcInv t K s2 (em ++ [key]) := by
        refine ⟨hdom', hchar', ?_, ?_, ?_, ?_, ?_⟩
        · intro k hk
          exact hinv.rem_sub k (List.mem_filter.mp hk).1
        · exact hinv.rem_nd.filter _
        · show s.result ++ [c] = List.map (getC t) (em ++ [key])
          rw [hinv.res, List.map_append, List.map_singleton, hgetkey]
        · have h1 : ((em ++ [key]) ++ s2.remaining).Perm (em ++ s.remaining) := by
            rw [List.append_assoc, List.singleton_append]
            exact List.Perm.append_left em (cons_filter_ne_perm hinv.rem_nd hkrem)
          exact h1.trans hinv.perm
        · intro i hi d hd
          rw [List.length_append, List.length_singleton] at hi
          by_cases hilt : i < em.length
          · have hget : (em ++ [key]).get ⟨i, by simp; omega⟩ = em.get ⟨i, hilt⟩ := by
              rw [List.get_eq_getElem, List.get_eq_getElem]
              exact List.getElem_append_left hilt
            rw [hget] at hd
            rw [List.take_append_of_le_length (le_of_lt hilt)]
            exact hinv.order i hilt d hd
          · have hieq : i = em.length := by omega
            subst hieq
            have hget : (em ++ [key]).get ⟨em.length, by simp⟩ = key := by
              rw [List.get_eq_getElem]
              exact List.getElem_concat_length em key em.length rfl _
            rw [hget] at hd
            rw [List.take_left]
            have hdnr : d ∉ s.remaining := by
              intro hdr
              have := List.filter_eq_nil_iff.mp hfilnil d hd
              rw [memB_iff] at this
              exact this hdr
            have hdK : d ∈ K := (ctx.kperm.mem_iff).mpr (depsOf_subset ctx.valid hd)
            rcases List.mem_append.mp ((hinv.perm.mem_iff).mpr hdK) with hde | hdr
            · exact hde
            · exact absurd hdr hdnr
      have hrest2 : ∀ k ∈ rest, k ∈ s2.remaining := by
        intro k hk
        refine List.mem_filter.mpr ⟨hsnap k (List.mem_cons_of_mem _ hk), ?_⟩
        have : k ≠ key := fun he => hndrest.1 (he ▸ hk)
        simp [this]
      obtain ⟨s', emNew', heq', hinv', hsub', _⟩ :=
        ih s2 (em ++ [key]) (count + 1) hinv2 hndrest.2 hrest2
      refine ⟨s', key :: emNew', ?_, ?_, ?_, ?_⟩
      · rw [hstep, heq']
        have : count + 1 + emNew'.length = count + (key :: emNew').length := by
          simp only [List.length_cons]
          omega
        rw [this]
      · rw [List.append_assoc, List.singleton_append] at hinv'
        exact hinv'
      · intro k hk
        exact (List.mem_filter.mp (hsub' k hk)).1
      · intro _
        exact List.cons_ne_nil _ _
    · -- the key still has live dependencies and is skipped
      have hstep : scanPass t P (key :: rest) s count = scanPass t P rest s count := by
        simp only [scanPass, hds, hc, hemp, if_false, Bool.false_eq_true]
      obtain ⟨s', emNew', heq', hinv', hsub', hprog'⟩ :=
        ih s em count hinv hndrest.2 (fun k hk => hsnap k (List.mem_cons_of_mem _ hk))
      refine ⟨s', emNew', hstep ▸ heq', hinv', hsub', ?_⟩
      rintro ⟨k, hkmem, hkfil⟩
      rcases List.mem_cons.mp hkmem with he | hm
      · subst he
        rw [hkfil] at hemp
        exact absurd rfl hemp
      · exact hprog' ⟨k, hm, hkfil⟩

/-- Soundness of a successful run of the emission loop: whatever it returns is
a topologically ordered enumeration of `K`.  (No acyclicity assumption: the
loop itself fails on cycles.) -/
theorem calcLoop_sound {t : ContentTable} {K : List Path} {P : MapP}
    (ctx : CalcCtx t K P) :
    ∀ (fuel : Nat) (s : CalcState) (em : List Path) (r : List Content),
      CalcInv t K s em →
      calcLoop t P fuel s = some r →
      ∃ emf, r = emf.map (getC t) ∧ emf.Perm K ∧ TopoOrdered t emf := by
  intro fuel
  induction fuel with
  | zero =>
    intro s em r hinv heq
    by_cases hre : s.remaining.isEmpty = true
    · simp only [calcLoop, hre, if_true] at heq
      injection heq with heq
      refine ⟨em, by rw [← heq, hinv.res], ?_, hinv.order⟩
      have hnil : s.remaining = [] := List.isEmpty_iff.mp hre
      have := hinv.perm
      rw [hnil, List.append_nil] at this
      exact this
    · simp only [calcLoop, hre, if_false] at heq
      exact Option.noConfusion heq
  | succ fuel ih =>
    intro s em r hinv heq
    by_cases hre : s.remaining.isEmpty = true
    · simp only [calcLoop, hre, if_true] at heq
      injection heq with heq
      refine ⟨em, by rw [← heq, hinv.res], ?_, hinv.order⟩
      have hnil : s.remaining = [] := List.isEmpty_iff.mp hre
      have := hinv.perm
      rw [hnil, List.append_nil] at this
      exact this
    · obtain ⟨s', emNew, heqscan, hinv', _, _⟩ :=
        scanPass_spec ctx s.remaining s em 0 hinv hinv.rem_nd (fun k hk => hk)
      simp only [calcLoop, hre, if_false, heqscan] at heq
      by_cases hz : 0 + emNew.length = 0
      · rw [if_pos hz] at heq
        exact Option.noConfusion heq
      · rw [if_neg hz] at heq
        exact ih s' (em ++ emNew) r hinv' heq

/-- In an acyclic table with valid dependencies, every nonempty key set
contains a key none of whose dependencies lie in the set. -/
theorem exists_source {t : ContentTable} (hnc : NoCycle t) :
    ∀ (S : List Path), S ≠ [] →
      ∃ k ∈ S, ∀ d ∈ depsOf t k, d ∉ S := by
  intro S hSne
  by_contra hcon
  push_neg at hcon
  have hex : ∀ k, ∃ d, k ∈ S → d ∈ depsOf t k ∧ d ∈ S := by
    intro k
    by_cases hk : k ∈ S
    · obtain ⟨d, hd1, hd2⟩ := hcon k hk
      exact ⟨d, fun _ => ⟨hd1, hd2⟩⟩
    · exact ⟨k, fun h => absurd h hk⟩
  choose f hf using hex
  obtain ⟨k0, hk0⟩ := List.exists_mem_of_ne_nil S hSne
  have hiter : ∀ n, f^[n] k0 ∈ S := by
    intro n
    induction n with
    | zero => exact hk0
    | succ n ihn =>
      rw [Function.iterate_succ_apply']
      exact (hf (f^[n] k0) ihn).2
  have htrans : ∀ (m : Nat) (x : Path), (∀ n, f^[n] x ∈ S) →
      Relation.TransGen (dep t) x (f^[m + 1] x) := by
    intro m
    induction m with
    | zero =>
      intro x hx
      exact Relation.TransGen.single (hf x (hx 0)).1
    | succ m ihm =>
      intro x hx
      rw [Function.iterate_succ_apply']
      exact Relation.TransGen.tail (ihm x hx) (hf (f^[m + 1] x) (hx (m + 1))).1
  have hkey : ∀ a b : Nat, a < b → f^[a] k0 = f^[b] k0 → False := by
    intro a b hab hfab
    have hxiter : ∀ n, f^[n] (f^[a] k0) ∈ S := by
      intro n
      rw [← Function.iterate_add_apply]
      exact hiter (n + a)
    have hm : b - a = (b - a - 1) + 1 := by omega
    have htg := htrans (b - a - 1) (f^[a] k0) hxiter
    rw [← hm, ← Function.iterate_add_apply] at htg
    have hba : b - a + a = b := by omega
    rw [hba, ← hfab] at htg
    exact hnc ⟨f^[a] k0, htg⟩
  have hmaps : ∀ i ∈ Finset.range (S.length + 1), f^[i] k0 ∈ S.toFinset := by
    intro i _
    exact List.mem_toFinset.mpr (hiter i)
  have hcard : S.toFinset.card < (Finset.range (S.length + 1)).card := by
    rw [Finset.card_range]
    exact Nat.lt_succ_of_le (List.toFinset_card_le S)
  obtain ⟨i, _, j, _, hij, hfij⟩ :=
    Finset.exists_ne_map_eq_of_card_lt_of_maps_to hcard hmaps
  rcases hij.lt_or_lt with hlt | hlt
  · exact hkey i j hlt hfij
  · exact hkey j i hlt hfij.symm

/-- Progress of the emission loop on acyclic tables: with fuel at least the
size of `remaining`, the loop succeeds. -/
theorem calcLoop_progress {t : ContentTable} {K : List Path} {P : MapP}
    (ctx : CalcCtx t K P) (hnc : NoCycle t) :
    ∀ (fuel : Nat) (s : CalcState) (em : List Path),
      CalcInv t K s em →
      s.remaining.length ≤ fuel →
      ∃ r, calcLoop t P fuel s = some r := by
  intro fuel
  induction fuel with
  | zero =>
    intro s em hinv hle
    have hnil : s.remaining = [] := List.eq_nil_of_length_eq_zero (Nat.le_zero.mp hle)
    refine ⟨s.result, ?_⟩
    simp [calcLoop, hnil]
  | succ fuel ih =>
    intro s em hinv hle
    by_cases hre : s.remaining.isEmpty = true
    · exact ⟨s.result, by simp [calcLoop, hre]⟩
    · have hne : s.remaining ≠ [] := by
        intro h
        rw [h] at hre
        exact hre rfl
      obtain ⟨k, hk, hnod⟩ := exists_source hnc s.remaining hne
      have hkfil : (depsOf t k).filter (fun d => memB d s.remaining) = [] := by
        refine List.filter_eq_nil_iff.mpr ?_
        intro d hd
        intro hmem
        exact hnod d hd ((memB_iff d s.remaining).mp hmem)
      obtain ⟨s', emNew, heqscan, hinv', _, hprog⟩ :=
        scanPass_spec ctx s.remaining s em 0 hinv hinv.rem_nd (fun x hx => hx)
      have hemne : emNew ≠ [] := hprog ⟨k, hk, hkfil⟩
      have hcnt : ¬(0 + emNew.length = 0) := by
        intro h
        exact hemne (List.eq_nil_of_length_eq_zero (by omega))
      have hlen1 : em.length + s.remaining.length = K.length := by
        have := hinv.perm.length_eq
        rw [List.length_append] at this
        exact this
      have hlen2 : em.length + emNew.length + s'.remaining.length = K.length := by
        have := hinv'.perm.length_eq
        rw [List.length_append, List.length_append] at this
        omega
      have hle' : s'.remaining.length ≤ fuel := by
        have hpos : 1 ≤ emNew.length := by
          rcases emNew with _ | ⟨a, rest⟩
          · exact absurd rfl hemne
          · simp
        omega
      obtain ⟨r, hr⟩ := ih s' (em ++ emNew) hinv' hle'
      refine ⟨r, ?_⟩
      simp [calcLoop, hre, heqscan, hcnt, hr]
      exact hemne

theorem lookup_initMap (K : List Path) (k : Path) :
    lookupKV (K.map (fun x => (x, ([] : List Path)))) k =
      if k ∈ K then some [] else none := by
  induction K with
  | nil => simp [lookupKV]
  | cons a rest ih =>
    by_cases hak : a = k
    · subst hak
      simp [lookupKV]
    · simp only [List.map_cons, lookupKV, if_neg hak, ih]
      by_cases hk : k ∈ rest
      · rw [if_pos hk, if_pos (List.mem_cons_of_mem _ hk)]
      · rw [if_neg hk, if_neg (by
          intro hmem
          rcases List.mem_cons.mp hmem with he | hm
          · exact hak he.symm
          · exact hk hm)]

/-- Setting up `calculate`: the sorted key list, the built maps, the loop
context and the initial invariant. -/
theorem calculate_setup (t : ContentTable)
    (hnd : (keysOf t).Nodup) (hvalid : DepsValid t) :
    ∃ (K : List Path) (D P : MapP),
      K = sortByB pathLE (keysOf t) ∧
      CalcCtx t K P ∧
      CalcInv t K ⟨[], D, K⟩ [] ∧
      calculate t = calcLoop t P K.length ⟨[], D, K⟩ := by
  set K := sortByB pathLE (keysOf t) with hK
  have hKperm : K.Perm (keysOf t) := sortByB_perm pathLE _
  have hKnd : K.Nodup := (hKperm.nodup_iff).mpr hnd
  set init : MapP := K.map (fun x => (x, ([] : List Path))) with hinit
  have hinit_lookup : ∀ k, lookupKV init k = if k ∈ K then some [] else none := by
    intro k
    rw [hinit]
    exact lookup_initMap K k
  have htl : ∀ k ∈ K, (lookupKV t k).isSome = true := by
    intro k hk
    exact (lookupKV_isSome_iff t k).mpr (hKperm.subset hk)
  have hpd : ∀ k ∈ K, ∀ d ∈ depsOf t k, (lookupKV init d).isSome = true := by
    intro k hk d hd
    rw [hinit_lookup d, if_pos (hKperm.mem_iff.mpr (depsOf_subset hvalid hd))]
    rfl
  obtain ⟨D, P, heqbuild, hDchar, hPiso, hPsound, hPmono, hPelem⟩ :=
    buildMaps_spec t K init init hKnd htl hpd
  have ctx : CalcCtx t K P := by
    refine ⟨hKperm, hKnd, hvalid, ?_, ?_, ?_⟩
    · intro k
      rw [hPiso k, hinit_lookup k]
      by_cases hk : k ∈ K <;> simp [hk]
    · intro q l hl j hj
      rcases hPsound q l hl j hj with ⟨l0, hl0, hjl0⟩ | hk
      · rw [hinit_lookup q] at hl0
        by_cases hq : q ∈ K
        · rw [if_pos hq] at hl0
          injection hl0 with he
          subst he
          exact absurd hjl0 (by simp)
        · rw [if_neg hq] at hl0
          exact Option.noConfusion hl0
      · exact hk
    · intro j hj d hd l hl
      exact hPelem j hj d hd l hl
  have hinv : CalcInv t K ⟨[], D, K⟩ [] := by
    refine ⟨?_, ?_, fun k hk => hk, hKnd, rfl, List.Perm.refl _, ?_⟩
    · intro k
      rw [hDchar k]
      by_cases hk : k ∈ K
      · rw [if_pos hk, hinit_lookup k, if_pos hk]
        simp [hk]
      · rw [if_neg hk, hinit_lookup k, if_neg hk]
        simp [hk]
    · intro k hk
      rw [hDchar k, if_pos hk, hinit_lookup k, if_pos hk]
      simp only [Option.map_some']
      congr 1
      rw [List.nil_append]
      symm
      refine List.filter_eq_self.mpr ?_
      intro d hd
      rw [memB_iff]
      exact hKperm.mem_iff.mpr (depsOf_subset hvalid hd)
    · intro i hi
      exact absurd hi (by simp)
  refine ⟨K, D, P, rfl, ctx, hinv, ?_⟩
  simp only [calculate]
  rw [← hK, ← hinit, heqbuild]

/-- C1: on a content table with unique keys, in which every listed dependency
names an existing content key and no dependency cycle exists, `calculate`
returns a sequence that enumerates the stored content of the table's keys
exactly once — the emitted key order is a permutation of the table's keys —
and in which, for every emitted key, every key in its dependency list is
emitted strictly earlier. -/
theorem c1_calculate_topological (t : ContentTable)
    (hnd : (keysOf t).Nodup) (hvalid : DepsValid t) (hnc : NoCycle t) :
    ∃ ks : List Path,
      calculate t = some (ks.map (getC t)) ∧
      ks.Perm (keysOf t) ∧
      ∀ i (hi : i < ks.length), ∀ d ∈ depsOf t (ks.get ⟨i, hi⟩),
        ∃ j, ∃ hj : j < ks.length, j < i ∧ ks.get ⟨j, hj⟩ = d := by
  obtain ⟨K, D, P, hKdef, ctx, hinv, hcalc⟩ := calculate_setup t hnd hvalid
  obtain ⟨r, hr⟩ := calcLoop_progress ctx hnc K.length ⟨[], D, K⟩ [] hinv (le_refl _)
  obtain ⟨emf, hremf, hperm, horder⟩ :=
    calcLoop_sound ctx K.length ⟨[], D, K⟩ [] r hinv hr
  refine ⟨emf, ?_, hperm.trans ctx.kperm, ?_⟩
  · rw [hcalc, hr, hremf]
  · intro i hi d hd
    have htake := horder i hi d hd
    obtain ⟨n, hn, hget⟩ := List.getElem_of_mem htake
    have hn2 : n < i := by
      rw [List.length_take] at hn
      omega
    have hn3 : n < emf.length := by
      rw [List.length_take] at hn
      omega
    refine ⟨n, hn3, hn2, ?_⟩
    rw [List.getElem_take] at hget
    rw [List.get_eq_getElem]
    exact hget

/-- A table whose keys admit a topologically ordered enumeration has no
dependency cycle. -/
theorem no_cycle_of_topo {t : ContentTable} {l : List Path}
    (hmem : ∀ x, x ∈ keysOf t → x ∈ l)
    (horder : TopoOrdered t l) :
    NoCycle t := by
  rintro ⟨k, htg⟩
  have hsucc : ∀ x, cycClosure t k x → ∃ d, d ∈ depsOf t x ∧ cycClosure t k d := by
    rintro x ⟨hkx, hxk⟩
    obtain ⟨d, hxd, hdk⟩ := (Relation.TransGen.head'_iff).mp hxk
    refine ⟨d, hxd, Relation.TransGen.tail hkx hxd, ?_⟩
    rcases (Relation.reflTransGen_iff_eq_or_transGen).mp hdk with he | htg2
    · subst he
      exact htg
    · exact htg2
  have hkeys : ∀ x, cycClosure t k x → x ∈ keysOf t := by
    intro x hx
    obtain ⟨d, hd, _⟩ := hsucc x hx
    unfold depsOf at hd
    rcases hc : lookupKV t x with _ | c
    · rw [hc] at hd
      exact absurd hd (by simp)
    · exact (lookupKV_isSome_iff t x).mp (by rw [hc]; rfl)
  classical
  let Q : Nat → Prop := fun n => ∃ h : n < l.length, cycClosure t k (l.get ⟨n, h⟩)
  haveI : DecidablePred Q := fun n => Classical.propDecidable _
  have hQex : ∃ n, Q n := by
    have hck : cycClosure t k k := ⟨htg, htg⟩
    obtain ⟨n, hn, hget⟩ := List.getElem_of_mem (hmem k (hkeys k hck))
    refine ⟨n, hn, ?_⟩
    rw [List.get_eq_getElem, hget]
    exact hck
  obtain ⟨hi0, hC0⟩ := Nat.find_spec hQex
  obtain ⟨d, hd, hCd⟩ := hsucc _ hC0
  have htake := horder (Nat.find hQex) hi0 d hd
  obtain ⟨m, hm, hgetm⟩ := List.getElem_of_mem htake
  have hmlt : m < Nat.find hQex := by
    rw [List.length_take] at hm
    omega
  have hml : m < l.length := by
    rw [List.length_take] at hm
    omega
  refine Nat.find_min hQex hmlt ⟨hml, ?_⟩
  rw [List.getElem_take] at hgetm
  rw [List.get_eq_getElem, hgetm]
  exact hCd

/-- C3: a content table containing a dependency cycle — in particular two
entries that mutually depend on each other — never yields an ordered
sequence: `calculate` aborts (modelled `none`). -/
theorem c3_calculate_cycle (t : ContentTable)
    (hnd : (keysOf t).Nodup) (hvalid : DepsValid t) (hcyc : HasCycle t) :
    calculate t = none := by
  rcases hres : calculate t with _ | r
  · rfl
  · exfalso
    obtain ⟨K, D, P, hKdef, ctx, hinv, hcalc⟩ := calculate_setup t hnd hvalid
    rw [hcalc] at hres
    obtain ⟨emf, _, hperm, horder⟩ := calcLoop_sound ctx _ _ [] r hinv hres
    exact no_cycle_of_topo
      (fun x hx => (hperm.trans ctx.kperm).mem_iff.mpr hx) horder hcyc

/-! ## Determinism of `calculate` (C2) -/

theorem buildMaps_congr {t1 t2 : ContentTable}
    (hlk : ∀ k, lookupKV t1 k = lookupKV t2 k) :
    ∀ (ks : List Path) (ms : MapP × MapP), buildMaps t1 ks ms = buildMaps t2 ks ms := by
  intro ks
  induction ks with
  | nil => intro ms; rfl
  | cons key rest ih =>
    intro ms
    obtain ⟨deps, depnts⟩ := ms
    simp only [buildMaps, hlk key]
    split
    · rfl
    · split
      · rfl
      · exact ih _

theorem scanPass_congr {t1 t2 : ContentTable}
    (hlk : ∀ k, lookupKV t1 k = lookupKV t2 k) (P : MapP) :
    ∀ (snap : List Path) (s : CalcState) (count : Nat),
      scanPass t1 P snap s count = scanPass t2 P snap s count := by
  intro snap
  induction snap with
  | nil => intro s count; rfl
  | cons key rest ih =>
    intro s count
    simp only [scanPass, hlk key]
    split
    · exact ih _ _
    · split
      · rfl
      · split
        · split
          · rfl
          · split
            · rfl
            · exact ih _ _
        · exact ih _ _

theorem calcLoop_congr {t1 t2 : ContentTable}
    (hlk : ∀ k, lookupKV t1 k = lookupKV t2 k) (P : MapP) :
    ∀ (fuel : Nat) (s : CalcState), calcLoop t1 P fuel s = calcLoop t2 P fuel s := by
  intro fuel
  induction fuel with
  | zero => intro s; rfl
  | succ fuel ih =>
    intro s
    simp only [calcLoop]
    by_cases hre : s.remaining.isEmpty = true
    · rw [if_pos hre, if_pos hre]
    · rw [if_neg hre, if_neg hre, scanPass_congr hlk P s.remaining s 0]
      split
      · rfl
      · split
        · rfl
        · exact ih _

/-- The sorts of permuted key multisets agree: `pathLE` is total, transitive
and antisymmetric, so there is one sorted arrangement. -/
theorem sortByB_eq_of_perm {l1 l2 : List Path} (hp : l1.Perm l2) :
    sortByB pathLE l1 = sortByB pathLE l2 := by
  haveI : IsAntisymm Path (fun a b => pathLE a b = true) :=
    ⟨fun a b h1 h2 => pathLE_antisymm h1 h2⟩
  have htr : ∀ a b c : Path, pathLE a b = true → pathLE b c = true → pathLE a c = true :=
    fun a b c h1 h2 => pathLE_trans h1 h2
  have hto : ∀ a b : Path, pathLE a b = true ∨ pathLE b a = true := pathLE_total
  have hs1 := sortByB_sorted pathLE hto htr l1
  have hs2 := sortByB_sorted pathLE hto htr l2
  exact List.eq_of_perm_of_sorted
    ((sortByB_perm pathLE l1).trans (hp.trans (sortByB_perm pathLE l2).symm))
    hs1 hs2

/-- A state with nothing remaining returns its accumulated result at any
fuel. -/
theorem calcLoop_empty_rem (t : ContentTable) (P : MapP) :
    ∀ (fuel : Nat) (s : CalcState), s.remaining = [] →
      calcLoop t P fuel s = some s.result := by
  intro fuel s hnil
  cases fuel <;> simp [calcLoop, hnil]

/-- With every dependency list empty, one scan emits the whole snapshot in
order and removes it from `remaining`. -/
theorem scanPass_all_empty {t : ContentTable} {K : List Path} {P : MapP}
    (ctx : CalcCtx t K P) :
    ∀ (snap : List Path) (s : CalcState) (count : Nat),
      snap.Nodup →
      (∀ k, (lookupKV s.deps k).isSome = true ↔ k ∈ K) →
      (∀ k ∈ K, lookupKV s.deps k = some []) →
      (∀ k ∈ snap, k ∈ s.remaining) →
      (∀ k ∈ s.remaining, k ∈ K) →
      ∃ depsF rem',
        scanPass t P snap s count =
          some (⟨s.result ++ snap.map (getC t), depsF, rem'⟩, count + snap.length) ∧
        (∀ x, x ∈ rem' ↔ x ∈ s.remaining ∧ x ∉ snap) := by
  intro snap
  induction snap with
  | nil =>
    intro s count _ _ _ _ _
    refine ⟨s.deps, s.remaining, by simp [scanPass], ?_⟩
    intro x
    simp
  | cons key rest ih =>
    intro s count hnd hdom hchar hsnap hremsub
    have hndr := List.nodup_cons.mp hnd
    have hkrem : key ∈ s.remaining := hsnap key (List.mem_cons_self _ _)
    have hkK : key ∈ K := hremsub key hkrem
    have hds : lookupKV s.deps key = some [] := hchar key hkK
    obtain ⟨c, hc⟩ := mem_keysOf_lookup (ctx.kperm.subset hkK)
    have hdlsome := (ctx.pdom key).mpr hkK
    rcases hdl : lookupKV P key with _ | dl
    · rw [hdl] at hdlsome
      exact absurd hdlsome (by simp)
    have hdlK : ∀ j ∈ dl, j ∈ K := ctx.psub key dl hdl
    obtain ⟨deps2, hrm, hchar2⟩ :=
      removeFromDependents_spec key dl s.deps (fun j hj => (hdom j).mpr (hdlK j hj))
    set s2 : CalcState :=
      ⟨s.result ++ [c], deps2, s.remaining.filter (fun n => decide (n ≠ key))⟩ with hs2
    have hstep : scanPass t P (key :: rest) s count = scanPass t P rest s2 (count + 1) := by
      simp only [scanPass, hds, hc, hdl, hrm, List.isEmpty_nil, if_true, hs2]
    have hdom2 : ∀ k, (lookupKV s2.deps k).isSome = true ↔ k ∈ K := by
      intro k
      show (lookupKV deps2 k).isSome = true ↔ k ∈ K
      rw [hchar2 k]
      by_cases hk : k ∈ dl
      · rw [if_pos hk, ← hdom k]
        rcases lookupKV s.deps k with _ | l <;> rfl
      · rw [if_neg hk]
        exact hdom k
    have hchar2' : ∀ k ∈ K, lookupKV s2.deps k = some [] := by
      intro k hk
      show lookupKV deps2 k = some []
      rw [hchar2 k]
      by_cases hkdl : k ∈ dl
      · rw [if_pos hkdl, hchar k hk]
        rfl
      · rw [if_neg hkdl]
        exact hchar k hk
    have hsnap2 : ∀ k ∈ rest, k ∈ s2.remaining := by
      intro k hk
      refine List.mem_filter.mpr ⟨hsnap k (List.mem_cons_of_mem _ hk), ?_⟩
      have : k ≠ key := fun he => hndr.1 (he ▸ hk)
      simp [this]
    have hremsub2 : ∀ k ∈ s2.remaining, k ∈ K := by
      intro k hk
      exact hremsub k (List.mem_filter.mp hk).1
    obtain ⟨depsF, rem', heq', hmem'⟩ := ih s2 (count + 1) hndr.2 hdom2 hchar2' hsnap2 hremsub2
    have hgetkey : getC t key = c := by
      unfold getC
      rw [hc]
      rfl
    refine ⟨depsF, rem', ?_, ?_⟩
    · rw [hstep, heq']
      have h1 : s2.result = s.result ++ (key :: rest).map (getC t) → True := fun _ => trivial
      have hres2 : s2.result = s.result ++ [c] := rfl
      have : s.result ++ [c] ++ rest.map (getC t) =
          s.result ++ (key :: rest).map (getC t) := by
        rw [List.append_assoc, List.singleton_append, List.map_cons, ← hgetkey]
      rw [show (s2.result ++ rest.map (getC t) : List Content) =
          s.result ++ (key :: rest).map (getC t) from by rw [hres2]; exact this]
      have : count + 1 + rest.length = count + (key :: rest).length := by
        simp only [List.length_cons]
        omega
      rw [this]
    · intro x
      rw [hmem' x]
      show x ∈ s.remaining.filter (fun n => decide (n ≠ key)) ∧ x ∉ rest ↔ _
      rw [List.mem_filter]
      constructor
      · rintro ⟨⟨hx1, hx2⟩, hx3⟩
        refine ⟨hx1, ?_⟩
        intro hmem
        rcases List.mem_cons.mp hmem with he | hm
        · rw [decide_eq_true_eq] at hx2
          exact hx2 he
        · exact hx3 hm
      · rintro ⟨hx1, hx2⟩
        refine ⟨⟨hx1, ?_⟩, fun hm => hx2 (List.mem_cons_of_mem _ hm)⟩
        rw [decide_eq_true_eq]
        exact fun he => hx2 (he ▸ List.mem_cons_self _ _)

theorem calcLoop_succ_step {t : ContentTable} {P : MapP} {fuel : Nat}
    {s s' : CalcState} {count : Nat}
    (hne : s.remaining.isEmpty = false)
    (hscan : scanPass t P s.remaining s 0 = some (s', count))
    (hcnt : ¬count = 0) :
    calcLoop t P (fuel + 1) s = calcLoop t P fuel s' := by
  simp only [calcLoop, hne, Bool.false_eq_true, if_false, hscan]
  rw [if_neg hcnt]

/-- With no dependencies declared anywhere, `calculate` emits exactly the
base collated order of the keys. -/
theorem calculate_all_empty (t : ContentTable) (hnd : (keysOf t).Nodup)
    (hall : ∀ p ∈ t, p.2.dependencies = []) :
    calculate t = some ((sortByB pathLE (keysOf t)).map (getC t)) := by
  have hvalid : DepsValid t := by
    intro p hp d hd
    rw [hall p hp] at hd
    exact absurd hd (by simp)
  obtain ⟨K, D, P, hKdef, ctx, hinv, hcalc⟩ := calculate_setup t hnd hvalid
  have hdeps0 : ∀ k, depsOf t k = [] := by
    intro k
    unfold depsOf
    rcases hc : lookupKV t k with _ | c
    · rfl
    · exact hall (k, c) (lookupKV_mem hc)
  have hchar0 : ∀ k ∈ K, lookupKV D k = some [] := by
    intro k hk
    have hch := hinv.char k hk
    rw [hdeps0 k] at hch
    simpa using hch
  rw [hcalc, ← hKdef]
  rcases hK : K with _ | ⟨k0, Krest⟩
  · simp [calcLoop, hK]
  · obtain ⟨depsF, rem', heqscan, hmem'⟩ :=
      scanPass_all_empty ctx K ⟨[], D, K⟩ 0 ctx.knd
        hinv.dom hchar0 (fun k hk => hk) (fun k hk => hk)
    have hremnil : rem' = [] := by
      rw [List.eq_nil_iff_forall_not_mem]
      intro x hx
      exact ((hmem' x).mp hx).2 ((hmem' x).mp hx).1
    have hlen : K.length = Krest.length + 1 := by rw [hK]; rfl
    have hne : (K : List Path).isEmpty = false := by rw [hK]; rfl
    have hcnt : ¬(0 + K.length = 0) := by
      rw [hlen]
      omega
    have hstep := @calcLoop_succ_step t P Krest.length ⟨[], D, K⟩ _ _ hne heqscan hcnt
    rw [← hK, hlen, hstep, calcLoop_empty_rem t P _ _ hremnil]
    simp

/-- The instrumented scan agrees with the counting scan on every success: it
returns the same state, appends the emitted keys (whose number is the count)
to its accumulator, extends the result by exactly those keys' contents in
order, and the emitted keys form a sublist of the snapshot, so they inherit
its order. -/
theorem scanPassK_spec (t : ContentTable) (P : MapP) :
    ∀ (snap : List Path) (s : CalcState) (count : Nat) (ks : List Path)
      (s' : CalcState) (cnt : Nat),
      scanPass t P snap s count = some (s', cnt) →
      ∃ em : List Path,
        scanPassK t P snap s ks = some (s', ks ++ em) ∧
        cnt = count + em.length ∧
        s'.result = s.result ++ em.map (getC t) ∧
        em.Sublist snap ∧
        s'.remaining.Sublist s.remaining := by
  intro snap
  induction snap with
  | nil =>
    intro s count ks s' cnt heq
    simp only [scanPass, Option.some.injEq, Prod.mk.injEq] at heq
    obtain ⟨h1, h2⟩ := heq
    subst h1
    subst h2
    exact ⟨[], by simp [scanPassK], by simp, by simp, List.nil_sublist _,
      List.Sublist.refl _⟩
  | cons key rest ih =>
    intro s count ks s' cnt heq
    simp only [scanPass] at heq
    rcases hds : lookupKV s.deps key with _ | ds
    · rw [hds] at heq
      obtain ⟨em, hK, hc1, hc2, hc3, hc4⟩ := ih s count ks s' cnt heq
      refine ⟨em, ?_, hc1, hc2, hc3.cons key, hc4⟩
      simp only [scanPassK, hds]
      exact hK
    · rw [hds] at heq
      dsimp only at heq
      rcases hc : lookupKV t key with _ | c
      · rw [hc] at heq
        dsimp only at heq
        exact absurd heq (by simp)
      · rw [hc] at heq
        dsimp only at heq
        by_cases hemp : ds.isEmpty = true
        · rw [if_pos hemp] at heq
          rcases hdl : lookupKV P key with _ | dl
          · rw [hdl] at heq
            dsimp only at heq
            exact absurd heq (by simp)
          · rw [hdl] at heq
            dsimp only at heq
            rcases hrm : removeFromDependents key dl s.deps with _ | deps2
            · rw [hrm] at heq
              dsimp only at heq
              exact absurd heq (by simp)
            · rw [hrm] at heq
              dsimp only at heq
              obtain ⟨em, hK, hc1, hc2, hc3, hc4⟩ :=
                ih ⟨s.result ++ [c], deps2,
                    s.remaining.filter (fun n => decide (n ≠ key))⟩
                  (count + 1) (ks ++ [key]) s' cnt heq
              have hgetkey : getC t key = c := by
                unfold getC
                rw [hc]
                rfl
              refine ⟨key :: em, ?_, ?_, ?_, hc3.cons₂ key, ?_⟩
              · simp only [scanPassK, hds, hc, hemp, if_true, hdl, hrm]
                rw [hK]
                simp
              · rw [hc1]
                simp only [List.length_cons]
                omega
              · rw [hc2]
                show (s.result ++ [c]) ++ em.map (getC t) = _
                rw [List.append_assoc, List.singleton_append, List.map_cons, hgetkey]
              · exact hc4.trans (List.filter_sublist _)
        · rw [if_neg hemp] at heq
          obtain ⟨em, hK, hc1, hc2, hc3, hc4⟩ := ih s count ks s' cnt heq
          have hemp2 : ds.isEmpty = false := by
            simpa using hemp
          refine ⟨em, ?_, hc1, hc2, hc3.cons key, hc4⟩
          simp only [scanPassK, hds, hc, hemp2, Bool.false_eq_true, if_false]
          exact hK

/-- The instrumented loop agrees with `calcLoop` on every success and yields
the pass decomposition: the result is the concatenation of the passes'
contents, every pass is nonempty, and — when `remaining` is sorted — every
pass is sorted, because a pass emits a sublist of the snapshot and `remaining`
stays a sublist of itself across passes. -/
theorem calcLoopK_spec (t : ContentTable) (P : MapP) :
    ∀ (fuel : Nat) (s : CalcState) (r : List Content),
      calcLoop t P fuel s = some r →
      ∃ passes : List (List Path),
        calcLoopK t P fuel s = some (r, passes) ∧
        r = s.result ++ passes.flatten.map (getC t) ∧
        (∀ pass ∈ passes, pass ≠ []) ∧
        (List.Sorted (fun a b => pathLE a b = true) s.remaining →
          ∀ pass ∈ passes, List.Sorted (fun a b => pathLE a b = true) pass) := by
  intro fuel
  induction fuel with
  | zero =>
    intro s r heq
    simp only [calcLoop] at heq
    by_cases hre : s.remaining.isEmpty = true
    · rw [if_pos hre] at heq
      injection heq with h
      subst h
      refine ⟨[], ?_, by simp, by simp, by simp⟩
      simp [calcLoopK, hre]
    · rw [if_neg hre] at heq
      exact absurd heq (by simp)
  | succ fuel ih =>
    intro s r heq
    simp only [calcLoop] at heq
    by_cases hre : s.remaining.isEmpty = true
    · rw [if_pos hre] at heq
      injection heq with h
      subst h
      refine ⟨[], ?_, by simp, by simp, by simp⟩
      simp [calcLoopK, hre]
    · rw [if_neg hre] at heq
      rcases hscan : scanPass t P s.remaining s 0 with _ | p
      · rw [hscan] at heq
        exact absurd heq (by simp)
      · obtain ⟨s2, count⟩ := p
        rw [hscan] at heq
        dsimp only at heq
        by_cases hcnt : count = 0
        · rw [if_pos hcnt] at heq
          exact absurd heq (by simp)
        · rw [if_neg hcnt] at heq
          obtain ⟨em, hKscan, hcnteq, hres, hsubsnap, hsubrem⟩ :=
            scanPassK_spec t P s.remaining s 0 [] s2 count hscan
          obtain ⟨passes, hKloop, hres2, hne2, hsort2⟩ := ih s2 r heq
          have hemne : em ≠ [] := by
            intro hnil
            rw [hnil] at hcnteq
            exact hcnt (by simpa using hcnteq)
          refine ⟨em :: passes, ?_, ?_, ?_, ?_⟩
          · simp only [calcLoopK, hre, Bool.false_eq_true, if_false]
            rw [hKscan]
            dsimp only
            have hlne : ¬(([] ++ em : List Path).length = 0) := by
              simp [hemne]
            rw [if_neg hlne, hKloop]
            dsimp only
            simp
          · rw [hres2, hres, List.flatten_cons, List.map_append, List.append_assoc]
          · intro pass hp
            rcases List.mem_cons.mp hp with he | hp2
            · rw [he]
              exact hemne
            · exact hne2 pass hp2
          · intro hsort pass hp
            rcases List.mem_cons.mp hp with he | hp2
            · rw [he]
              exact List.Pairwise.sublist hsubsnap hsort
            · exact hsort2 (List.Pairwise.sublist hsubrem hsort) pass hp2

/-- Every successful `calculate` run decomposes into its scan passes: the
instrumented run returns the same result together with the emitted keys of
each pass, the result is the concatenation of the passes' contents, and every
pass is nonempty and sorted in the collated (parent directory, then file
name) base order — because a scan walks `remaining`, which is always a
sublist of the sorted key list. -/
theorem calculate_passes (t : ContentTable) (r : List Content)
    (heq : calculate t = some r) :
    ∃ passes : List (List Path),
      calculateK t = some (r, passes) ∧
      r = passes.flatten.map (getC t) ∧
      ∀ pass ∈ passes, pass ≠ [] ∧
        List.Sorted (fun a b => pathLE a b = true) pass := by
  have hsortK : List.Sorted (fun a b => pathLE a b = true) (sortByB pathLE (keysOf t)) :=
    sortByB_sorted pathLE pathLE_total (fun a b c h1 h2 => pathLE_trans h1 h2) (keysOf t)
  simp only [calculate] at heq
  simp only [calculateK]
  split at heq
  · exact absurd heq (by simp)
  · rename_i D P hbm
    obtain ⟨passes, hK, hres, hne, hsort⟩ :=
      calcLoopK_spec t P (sortByB pathLE (keysOf t)).length
        ⟨[], D, sortByB pathLE (keysOf t)⟩ r heq
    refine ⟨passes, hK, by simpa using hres, ?_⟩
    intro pass hp
    exact ⟨hne pass hp, hsort hsortK pass hp⟩

/-- C2: `calculate` is deterministic.  It is a pure function of the table (so
two calls on the same table agree definitionally); its output is invariant
under any reordering of the table's entries — the model of a different hash
map insertion/iteration order; among entries with no dependencies at all the
emission order is exactly the collated (parent directory, then file name)
base order; and in general every successful run decomposes into its scan
passes, each of which emits its keys in that collated base order (the
instrumented `calculateK`, the same computation recording the keys each pass
emits, returns the same result together with the pass decomposition). -/
theorem c2_calculate_deterministic (t1 t2 : ContentTable)
    (hperm : t1.Perm t2) (hnd : (keysOf t1).Nodup) :
    calculate t1 = calculate t2 ∧
    ((∀ p ∈ t1, p.2.dependencies = []) →
      calculate t1 = some ((sortByB pathLE (keysOf t1)).map (getC t1))) ∧
    (∀ r, calculate t1 = some r →
      ∃ passes : List (List Path),
        calculateK t1 = some (r, passes) ∧
        r = passes.flatten.map (getC t1) ∧
        ∀ pass ∈ passes, pass ≠ [] ∧
          List.Sorted (fun a b => pathLE a b = true) pass) := by
  refine ⟨?_, ?_, ?_⟩
  · have hlk : ∀ k, lookupKV t1 k = lookupKV t2 k :=
      fun k => lookupKV_eq_of_perm hperm hnd k
    have hkeys : sortByB pathLE (keysOf t1) = sortByB pathLE (keysOf t2) :=
      sortByB_eq_of_perm (hperm.map Prod.fst)
    show calculate t1 = calculate t2
    simp only [calculate]
    rw [show keysOf t1 = t1.map Prod.fst from rfl] at hkeys
    rw [show keysOf t2 = t2.map Prod.fst from rfl] at hkeys
    simp only [keysOf] at *
    rw [hkeys, buildMaps_congr hlk]
    split
    · rfl
    · exact calcLoop_congr hlk _ _ _
  · intro hall
    exact calculate_all_empty t1 hnd hall
  · intro r heq
    exact calculate_passes t1 r heq

theorem c1Table_deps (x : Path) : depsOf c1Table x = [] := by
  by_cases hx : (["c"] : Path) = x <;>
    simp [depsOf, c1Table, wContent, lookupKV, hx]

theorem c1Table_noCycle : NoCycle c1Table := by
  rintro ⟨k, htg⟩
  have hnodep : ∀ x y : Path, ¬ dep c1Table x y := by
    intro x y hxy
    have hm : y ∈ depsOf c1Table x := hxy
    rw [c1Table_deps x] at hm
    exact absurd hm (by simp)
  cases htg with
  | single h => exact hnodep _ _ h
  | tail _ h => exact hnodep _ _ h

theorem c3Table_cycle : HasCycle c3Table := by
  have h1 : dep c3Table ["a"] ["b"] := by
    show (["b"] : Path) ∈ depsOf c3Table ["a"]
    decide
  have h2 : dep c3Table ["b"] ["a"] := by
    show (["a"] : Path) ∈ depsOf c3Table ["b"]
    decide
  exact ⟨["a"], Relation.TransGen.tail (Relation.TransGen.single h1) h2⟩

theorem c1_calculate_topological_witness :
    (keysOf c1Table).Nodup ∧ DepsValid c1Table ∧ NoCycle c1Table ∧
    (∃ ks : List Path, calculate c1Table = some (ks.map (getC c1Table)) ∧
      ks.Perm (keysOf c1Table) ∧
      ∀ i (hi : i < ks.length), ∀ d ∈ depsOf c1Table (ks.get ⟨i, hi⟩),
        ∃ j, ∃ hj : j < ks.length, j < i ∧ ks.get ⟨j, hj⟩ = d) :=
  ⟨by decide, by unfold DepsValid; decide, c1Table_noCycle,
    c1_calculate_topological c1Table (by decide) (by unfold DepsValid; decide) c1Table_noCycle⟩

theorem c2_calculate_deterministic_witness :
    c2TableA.Perm c2TableB ∧ (keysOf c2TableA).Nodup ∧
    (calculate c2TableA = calculate c2TableB ∧
      ((∀ p ∈ c2TableA, p.2.dependencies = []) →
        calculate c2TableA =
          some ((sortByB pathLE (keysOf c2TableA)).map (getC c2TableA))) ∧
      (∀ r, calculate c2TableA = some r →
        ∃ passes : List (List Path),
          calculateK c2TableA = some (r, passes) ∧
          r = passes.flatten.map (getC c2TableA) ∧
          ∀ pass ∈ passes, pass ≠ [] ∧
            List.Sorted (fun a b => pathLE a b = true) pass)) :=
  ⟨by decide, by decide,
    c2_calculate_deterministic c2TableA c2TableB (by decide) (by decide)⟩

theorem c3_calculate_cycle_witness :
    (keysOf c3Table).Nodup ∧ DepsValid c3Table ∧ HasCycle c3Table ∧
    calculate c3Table = none :=
  ⟨by decide, by unfold DepsValid; decide, c3Table_cycle,
    c3_calculate_cycle c3Table (by decide) (by unfold DepsValid; decide) c3Table_cycle⟩

/-! ## The layer merge (C4) -/

theorem lookupKV_extendKV {α β : Type} [DecidableEq α] (m1 m2 : List (α × β))
    (hnd : (m2.map Prod.fst).Nodup) (k : α) :
    lookupKV (extendKV m1 m2) k = (lookupKV m2 k).or (lookupKV m1 k) := by
  induction m2 generalizing m1 with
  | nil => simp [extendKV, lookupKV, Option.or]
  | cons p rest ih =>
    obtain ⟨a, b⟩ := p
    simp only [List.map_cons, List.nodup_cons] at hnd
    have hstep : extendKV m1 ((a, b) :: rest) = extendKV (insertKV m1 a b) rest := rfl
    rw [hstep, ih (insertKV m1 a b) hnd.2]
    by_cases hk : k = a
    · subst hk
      rw [lookupKV_insertKV_self,
        lookupKV_eq_none (fun hmem => hnd.1 hmem),
        show lookupKV ((k, b) :: rest) k = some b from by simp [lookupKV]]
      rfl
    · rw [lookupKV_insertKV_ne _ _ _ _ hk,
        show lookupKV ((a, b) :: rest) k = lookupKV rest k from by
          simp only [lookupKV]
          rw [if_neg (fun he => hk he.symm)]]

/-- C4: for every pair of successfully loaded layers, the merged skeleton's
variable bindings are the shared layer's overlaid with the per-project
layer's (per-project wins on a name collision, names from only one layer are
kept), its task table is the shared tasks overlaid with the per-project tasks
(whole-task replacement), and its content table is the shared layer's content
verbatim. -/
theorem c4_merge_semantics (config_file : Path) (projFile skelFile : FileReadResult)
    (parse : String → Except KdlErrorInfo KdlDocument) (dir : DirContents)
    (pc : ProjectConfig) (sc : SkeletonConfig) (m : Skeleton)
    (hpc : ProjectConfig.read_from config_file projFile parse = .ok pc)
    (hsc : SkeletonConfig.read_from (pc.skeleton ++ ["skeleton.kdl"]) skelFile parse dir
      = .ok sc)
    (hm : Skeleton.from_config_file config_file projFile skelFile parse dir = .ok m)
    (hndv1 : (pc.vars.map Prod.fst).Nodup) (hndv2 : (sc.vars.map Prod.fst).Nodup)
    (hndt1 : (pc.tasks.map Prod.fst).Nodup) (hndt2 : (sc.tasks.map Prod.fst).Nodup) :
    (∀ name, lookupKV m.vars name =
      (lookupKV pc.vars name).or (lookupKV sc.vars name)) ∧
    (∀ name, lookupKV m.tasks name =
      (lookupKV pc.tasks name).or (lookupKV sc.tasks name)) ∧
    m.content = sc.content := by
  have hval : Skeleton.from_config_file config_file projFile skelFile parse dir =
      .ok { project := pc.root, skeleton := pc.skeleton, content := sc.content,
            vars := extendKV (extendKV [] sc.vars) pc.vars,
            tasks := extendKV (extendKV [] sc.tasks) pc.tasks } := by
    unfold Skeleton.from_config_file
    rw [hpc]
    show (match SkeletonConfig.read_from (pc.skeleton ++ ["skeleton.kdl"])
          skelFile parse dir with
      | Except.error e => Except.error e
      | Except.ok skeleton_config =>
        Except.ok { project := pc.root, skeleton := pc.skeleton,
                    content := skeleton_config.content,
                    vars := extendKV (extendKV [] skeleton_config.vars) pc.vars,
                    tasks := extendKV (extendKV [] skeleton_config.tasks) pc.tasks }
      : Except SkelErr Skeleton) = _
    rw [hsc]
  rw [hval] at hm
  injection hm with hm
  subst hm
  refine ⟨?_, ?_, rfl⟩
  · intro name
    show lookupKV (extendKV (extendKV [] sc.vars) pc.vars) name = _
    rw [lookupKV_extendKV _ _ hndv1, lookupKV_extendKV _ _ hndv2]
    rcases lookupKV pc.vars name with _ | v <;> rcases lookupKV sc.vars name with _ | w <;>
      simp [lookupKV, Option.or]
  · intro name
    show lookupKV (extendKV (extendKV [] sc.tasks) pc.tasks) name = _
    rw [lookupKV_extendKV _ _ hndt1, lookupKV_extendKV _ _ hndt2]
    rcases lookupKV pc.tasks name with _ | v <;> rcases lookupKV sc.tasks name with _ | w <;>
      simp [lookupKV, Option.or]

theorem c4_merge_semantics_witness :
    (lookupKV c4m.vars "color" = (lookupKV c4pc.vars "color").or (lookupKV c4sc.vars "color")) ∧
    (lookupKV c4m.tasks "build" = (lookupKV c4pc.tasks "build").or (lookupKV c4sc.tasks "build")) ∧
    c4m.content = c4sc.content :=
  have h := c4_merge_semantics ["p", ".skeleton.kdl"] .notFound .notFound
    (fun _ => .ok ⟨[]⟩) .unreadable c4pc c4sc c4m (by rfl) (by rfl) (by rfl)
    (by decide) (by decide) (by decide) (by decide)
  ⟨h.1 "color", h.2.1 "build", h.2.2⟩

theorem scanInsertLoop_char (tree : List Path) :
    ∀ acc : List (Path × Content), ∃ content,
      scanInsertLoop tree acc = .ok content ∧
      ∀ k, (lookupKV content k).isSome = true ↔
        k ∈ tree ∨ (lookupKV acc k).isSome = true := by
  induction tree with
  | nil =>
    intro acc
    exact ⟨acc, rfl, fun k => by simp [scanInsertLoop]⟩
  | cons src rest ih =>
    intro acc
    obtain ⟨content, heq, hiff⟩ := ih (insertKV acc src (defaultContent src))
    have hstep : scanInsertLoop (src :: rest) acc =
        scanInsertLoop rest (insertKV acc src (defaultContent src)) := rfl
    refine ⟨content, hstep.trans heq, fun k => ?_⟩
    rw [hiff k]
    by_cases hk : k = src
    · subst hk
      rw [lookupKV_insertKV_self]
      simp [List.mem_cons]
    · rw [lookupKV_insertKV_ne _ _ _ _ hk]
      simp [List.mem_cons, hk]

/-- C5 (counterexample to the original wording): with a missing configuration
file but a non-empty content root directory, `SkeletonConfig.read_from` yields
a layer that is flagged default yet whose content table is NOT empty — the
directory scan populates it regardless of the configuration file. -/
theorem c5_default_layer_content_not_empty :
    ∃ sc, SkeletonConfig.read_from ["p", "skeleton.kdl"] .notFound
        (fun _ => .ok ⟨[]⟩) (.file "one" .nil) = .ok sc ∧
      sc.is_default = true ∧ sc.content ≠ [] := by
  refine ⟨_, rfl, rfl, ?_⟩
  decide

/-- C5 (amended): when the configuration file does not exist (and the KDL
parser maps the empty document text to the empty document), loading succeeds
with `is_default = true`, empty variables and tasks, and paths derived purely
from path defaults (`root` = parent of the config path, `skeleton` =
`root/.skeleton`, shared root = parent `/content`); the shared layer's content
table is exactly the directory scan of the content root (empty only when the
scan finds nothing), not unconditionally empty.  The `hr1`/`hr2` hypotheses
state that rendering the default paths to strings and re-splitting them is the
identity, as holds for any real path. -/
theorem c5_missing_config_defaults (path : Path)
    (parse : String → Except KdlErrorInfo KdlDocument)
    (hparse : parse "" = .ok ⟨[]⟩)
    (hr1 : Path.ofString (Path.toStr path.dropLast) = path.dropLast)
    (hr2 : Path.ofString (Path.toStr (path.dropLast ++ [".skeleton"])) =
      path.dropLast ++ [".skeleton"])
    (dir : DirContents) (tree : List Path) (htree : read_tree dir = .ok tree) :
    ProjectConfig.read_from path .notFound parse =
      .ok { root := path.dropLast, skeleton := path.dropLast ++ [".skeleton"],
            vars := [], tasks := [], is_default := true } ∧
    ∃ sc, SkeletonConfig.read_from path .notFound parse dir = .ok sc ∧
      sc.is_default = true ∧ sc.vars = [] ∧ sc.tasks = [] ∧
      sc.root = path.dropLast ++ ["content"] ∧
      ∀ k, (lookupKV sc.content k).isSome = true ↔ k ∈ tree := by
  constructor
  · have h1 : ProjectConfig.read_from path .notFound parse =
        match parse "" with
        | .error e => .error (.kdlError e)
        | .ok document => ProjectConfig.ofDocument path document true := rfl
    rw [h1, hparse]
    show ProjectConfig.ofDocument path ⟨[]⟩ true = _
    have h2 : ProjectConfig.ofDocument path ⟨[]⟩ true =
        .ok { root := Path.ofString (Path.toStr path.dropLast)
              skeleton := Path.ofString (Path.toStr
                (Path.ofString (Path.toStr path.dropLast) ++ [".skeleton"]))
              vars := [], tasks := [], is_default := true } := rfl
    rw [h2, hr1, hr2]
  · obtain ⟨content0, hscan, hiff⟩ := scanInsertLoop_char tree []
    refine ⟨{ root := path.dropLast ++ ["content"], content := content0,
              tasks := [], vars := [], is_default := true },
            ?_, rfl, rfl, rfl, rfl, ?_⟩
    · have h3 : SkeletonConfig.read_from path .notFound parse dir =
          match parse "" with
          | .error e => .error (.kdlError e)
          | .ok document => SkeletonConfig.ofDocument path document true dir := rfl
      rw [h3, hparse]
      show SkeletonConfig.ofDocument path ⟨[]⟩ true dir = _
      have h4 : SkeletonConfig.ofDocument path ⟨[]⟩ true dir =
          match read_tree dir with
          | .error e => .error (.ioError e)
          | .ok content_tree =>
            match scanInsertLoop content_tree [] with
            | .error e => .error e
            | .ok c =>
              .ok { root := path.dropLast ++ ["content"], content := c,
                    tasks := [], vars := [], is_default := true } := rfl
      rw [h4, htree]
      show (match scanInsertLoop tree [] with
        | Except.error e => Except.error e
        | Except.ok c =>
          Except.ok { root := path.dropLast ++ ["content"], content := c,
                      tasks := [], vars := [], is_default := true }
        : Except SkelErr SkeletonConfig) = _
      rw [hscan]
    · intro k
      rw [hiff k]
      simp [lookupKV]

/-- Witness for C5 at a concrete path, parser and one-file content root. -/
theorem c5_missing_config_defaults_witness :
    (ProjectConfig.read_from ["p", "skeleton.kdl"] .notFound (fun _ => .ok ⟨[]⟩) =
      .ok { root := ["p"], skeleton := ["p", ".skeleton"], vars := [],
            tasks := [], is_default := true }) ∧
    ∃ sc, SkeletonConfig.read_from ["p", "skeleton.kdl"] .notFound
        (fun _ => .ok ⟨[]⟩) (.file "one" .nil) = .ok sc ∧
      sc.is_default = true ∧ sc.vars = [] ∧ sc.tasks = [] ∧
      sc.root = ["p", "content"] ∧
      ∀ k, (lookupKV sc.content k).isSome = true ↔ k ∈ [[("one" : String)]] :=
  c5_missing_config_defaults ["p", "skeleton.kdl"] (fun _ => .ok ⟨[]⟩) rfl rfl rfl
    (.file "one" .nil) [["one"]] rfl

/-! ## C6: destination rewriting -/

theorem isPrefixOfChars_iff (pre : List Char) :
    ∀ s, isPrefixOfChars pre s = true ↔ ∃ t, s = pre ++ t := by
  induction pre with
  | nil =>
    intro s
    simp [isPrefixOfChars]
  | cons a as ih =>
    intro s
    cases s with
    | nil =>
      simp only [isPrefixOfChars]
      refine ⟨fun h => Bool.noConfusion h, ?_⟩
      rintro ⟨t, ht⟩
      exact List.noConfusion ht
    | cons b bs =>
      simp only [isPrefixOfChars]
      by_cases hab : a = b
      · subst hab
        rw [if_pos rfl, ih bs]
        constructor
        · rintro ⟨t, rfl⟩
          exact ⟨t, rfl⟩
        · rintro ⟨t, ht⟩
          injection ht with _ h2
          exact ⟨t, h2⟩
      · rw [if_neg hab]
        refine ⟨fun h => Bool.noConfusion h, ?_⟩
        rintro ⟨t, ht⟩
        injection ht with h1 _
        exact absurd h1.symm hab

theorem strStartsWith_iff (s pre : String) :
    strStartsWith s pre = true ↔ ∃ t : String, s = pre ++ t := by
  rw [strStartsWith, isPrefixOfChars_iff]
  constructor
  · rintro ⟨t, ht⟩
    refine ⟨String.mk t, ?_⟩
    calc s = String.mk s.data := rfl
    _ = String.mk (pre.data ++ t) := by rw [ht]
    _ = pre ++ String.mk t := rfl
  · rintro ⟨t, rfl⟩
    exact ⟨t.data, rfl⟩

theorem dotTransform_dot (r : String) :
    dotTransform ("dot_" ++ r) = "." ++ r := by
  have h : strStartsWith ("dot_" ++ r) "dot_" = true :=
    (strStartsWith_iff _ _).mpr ⟨r, rfl⟩
  rw [dotTransform, if_pos h, String.drop_eq]
  rfl

theorem dotTransform_plain (fn : String)
    (h : ¬ ∃ r : String, fn = "dot_" ++ r) :
    dotTransform fn = fn := by
  have hs : strStartsWith fn "dot_" = false := by
    rcases hb : strStartsWith fn "dot_" with _ | _
    · rfl
    · exact absurd ((strStartsWith_iff _ _).mp hb) h
  simp [dotTransform, hs]

/-- C6: for every source path, `Content.from_source` computes the destination
as the same relative path with only the last segment transformed — a name of
the form `dot_<r>` becomes `.<r>`, any other name is unchanged — and in
particular `home/dot_bashrc` yields `home/.bashrc` while `home/bashrc` is
unchanged. -/
theorem c6_destination_rewrite :
    (∀ (p : Path) (fn : String), p.getLast? = some fn →
      ∃ c, Content.from_source p none = some c ∧
        c.source = p ∧
        c.destination = p.dropLast ++ [dotTransform fn] ∧
        (∀ r : String, fn = "dot_" ++ r → dotTransform fn = "." ++ r) ∧
        ((¬ ∃ r : String, fn = "dot_" ++ r) → dotTransform fn = fn)) ∧
    (∃ c, Content.from_source ["home", "dot_bashrc"] none = some c ∧
      c.destination = ["home", ".bashrc"]) ∧
    (∃ c, Content.from_source ["home", "bashrc"] none = some c ∧
      c.destination = ["home", "bashrc"]) := by
  refine ⟨?_, ⟨_, rfl, by decide⟩, ⟨_, rfl, by decide⟩⟩
  intro p fn h
  have hlast : p.getLastD "" = fn := by
    rw [List.getLastD_eq_getLast?, h]
    rfl
  refine ⟨_, rfl, rfl, ?_, ?_, dotTransform_plain fn⟩
  · show p.dropLast ++ [dotTransform (p.getLastD "")] = p.dropLast ++ [dotTransform fn]
    rw [hlast]
  · intro r hr
    rw [hr]
    exact dotTransform_dot r

/-- Witness for C6 at the concrete `home/dot_bashrc` source. -/
theorem c6_destination_rewrite_witness :
    ∃ c, Content.from_source ["home", "dot_bashrc"] none = some c ∧
      c.source = ["home", "dot_bashrc"] ∧
      c.destination = (["home", "dot_bashrc"] : Path).dropLast ++
        [dotTransform "dot_bashrc"] ∧
      (∀ r : String, "dot_bashrc" = "dot_" ++ r →
        dotTransform "dot_bashrc" = "." ++ r) ∧
      ((¬ ∃ r : String, "dot_bashrc" = "dot_" ++ r) →
        dotTransform "dot_bashrc" = "dot_bashrc") :=
  c6_destination_rewrite.1 ["home", "dot_bashrc"] "dot_bashrc" rfl

theorem execFold_cmd_set (c : String) (hc : ¬ c = "") :
    ∀ (es : List KdlEntry) (a : List String),
      execFold es (c, a) =
        .ok (c, a ++ (es.filter (fun e => e.name.isNone)).map kdl_entry_to_string) := by
  intro es
  induction es with
  | nil =>
    intro a
    simp [execFold]
  | cons e rest ih =>
    intro a
    by_cases hn : e.name.isSome = true
    · have hne : e.name.isNone = false := by
        cases hx : e.name with
        | none => rw [hx] at hn; simp at hn
        | some v => rfl
      simp only [execFold, if_pos hn, ih, List.filter_cons, hne]
      simp
    · have hne : e.name.isNone = true := by
        cases hx : e.name with
        | none => rfl
        | some v => rw [hx] at hn; simp at hn
      simp only [execFold, if_neg hn]
      rw [if_neg hc, ih (a ++ [kdl_entry_to_string e])]
      simp [List.filter_cons, hne]

theorem execFold_spec (es : List KdlEntry) :
    ∀ a : List String,
      execFold es ("", a) =
        match execSpecSplit es with
        | .error err => .error err
        | .ok p => .ok (p.1, a ++ p.2) := by
  induction es with
  | nil =>
    intro a
    simp [execFold, execSpecSplit]
  | cons e rest ih =>
    intro a
    by_cases hn : e.name.isSome = true
    · simp only [execFold, execSpecSplit, if_pos hn]
      exact ih a
    · simp only [execFold, execSpecSplit, if_neg hn]
      rw [if_pos trivial]
      rcases hv : e.value.as_string? with _ | v
      · rfl
      · dsimp only
        by_cases hve : v = ""
        · subst hve
          rw [if_pos rfl]
          exact ih a
        · rw [if_neg hve, execFold_cmd_set v hve rest a]

theorem taskSteps_exec_node (es : List KdlEntry) (steps : List TaskStep) :
    taskStepsOfNodes [⟨"exec", es, none⟩] steps =
      match execFold es ("", []) with
      | .error e => .error e
      | .ok p => .ok (steps ++ [.exec p.1 p.2]) := by
  simp only [taskStepsOfNodes, KdlNode.name, KdlNode.entries]
  rw [if_pos trivial]
  rcases execFold es ("", []) with e | ⟨c, a⟩
  · rfl
  · rfl

/-- C7 (amended): parsing a single `exec` node ignores named entries, swallows
empty-string positional values while the command is unset, takes the first
positional entry with a nonempty string value as the command with every later
positional entry stringified into an argument, fails with a missing-argument
error only when a non-string positional value is met while the command is
unset, and — contrary to the original claim — succeeds with an empty command
and no arguments when no positional entry sets the command. -/
theorem c7_exec_parsing (nm : String) (es : List KdlEntry) :
    Task.from_kdl_document ⟨[⟨"exec", es, none⟩]⟩ nm =
      match execSpecSplit es with
      | .error e => .error e
      | .ok p => .ok ⟨nm, [.exec p.1 p.2]⟩ := by
  have h1 : Task.from_kdl_document ⟨[⟨"exec", es, none⟩]⟩ nm =
      match taskStepsOfNodes [⟨"exec", es, none⟩] [] with
      | .error e => .error e
      | .ok steps => .ok ⟨nm, steps⟩ := rfl
  rw [h1, taskSteps_exec_node es [], execFold_spec es []]
  rcases hS : execSpecSplit es with e | p
  · rfl
  · rfl

/-- C7 counterexample to the original wording: a bare `exec` node with no
entries parses successfully to a step with the empty command and no
arguments — it is not a missing-argument error. -/
theorem c7_exec_no_arg_no_error :
    Task.from_kdl_document ⟨[⟨"exec", [], none⟩]⟩ "t" =
      .ok ⟨"t", [.exec "" []]⟩ := rfl

/-! ## C8: unreadable content root -/

/-- C8: a content root whose `read_dir` fails yields an empty listing and
`SkeletonConfig.read_from` still succeeds with an empty content table, while
an error on an entry inside a readable directory propagates out of the scan
and surfaces as an I/O error of `SkeletonConfig.read_from`. -/
theorem c8_unreadable_content_root (path : Path)
    (parse : String → Except KdlErrorInfo KdlDocument)
    (hparse : parse "" = .ok ⟨[]⟩) (e : IoErrorInfo) (rest : DirContents) :
    (read_tree .unreadable = .ok []) ∧
    (∃ sc, SkeletonConfig.read_from path .notFound parse .unreadable = .ok sc ∧
      sc.content = []) ∧
    (read_tree (.broken e rest) = .error e) ∧
    (SkeletonConfig.read_from path .notFound parse (.broken e rest) =
      .error (.ioError e)) := by
  refine ⟨rfl, ?_, rfl, ?_⟩
  · refine ⟨{ root := path.dropLast ++ ["content"], content := [],
              tasks := [], vars := [], is_default := true }, ?_, rfl⟩
    have h3 : SkeletonConfig.read_from path .notFound parse .unreadable =
        match parse "" with
        | .error er => .error (.kdlError er)
        | .ok document => SkeletonConfig.ofDocument path document true .unreadable := rfl
    rw [h3, hparse]
    rfl
  · have h3 : SkeletonConfig.read_from path .notFound parse (.broken e rest) =
        match parse "" with
        | .error er => .error (.kdlError er)
        | .ok document =>
          SkeletonConfig.ofDocument path document true (.broken e rest) := rfl
    rw [h3, hparse]
    rfl

/-- Witness for C8 at a concrete path, parser and I/O error. -/
theorem c8_unreadable_content_root_witness :
    (read_tree .unreadable = .ok []) ∧
    (∃ sc, SkeletonConfig.read_from ["p", "skeleton.kdl"] .notFound
        (fun _ => .ok ⟨[]⟩) .unreadable = .ok sc ∧ sc.content = []) ∧
    (read_tree (.broken ⟨"eio"⟩ .nil) = .error ⟨"eio"⟩) ∧
    (SkeletonConfig.read_from ["p", "skeleton.kdl"] .notFound (fun _ => .ok ⟨[]⟩)
        (.broken ⟨"eio"⟩ .nil) = .error (.ioError ⟨"eio"⟩)) :=
  c8_unreadable_content_root ["p", "skeleton.kdl"] (fun _ => .ok ⟨[]⟩) rfl
    ⟨"eio"⟩ .nil

/-! ## C9: panics in the `content` child loop -/

/-- C9: a `content` node whose `depends_on` child carries a non-string
positional value, and one whose `destination` child carries no positional
argument, both abort the process (modelled as the `panicked` error, distinct
from every structured `configError` the Result channel returns). -/
theorem c9_content_children_panics :
    (SkeletonConfig.read_from ["p", "skeleton.kdl"] .notFound
        (fun _ => .ok ⟨[⟨"content", [⟨none, .str "x"⟩],
          some ⟨[⟨"depends_on", [⟨none, .int 3⟩], none⟩]⟩⟩]⟩)
        (.file "x" .nil) =
      .error (.panicked "as_string unwrap on depends_on entry")) ∧
    (SkeletonConfig.read_from ["p", "skeleton.kdl"] .notFound
        (fun _ => .ok ⟨[⟨"content", [⟨none, .str "x"⟩],
          some ⟨[⟨"destination", [], none⟩]⟩⟩]⟩)
        (.file "x" .nil) =
      .error (.panicked "unwrap on first_string_arg for destination")) :=
  ⟨rfl, rfl⟩

/-! ## C10: `task` nodes without children -/

/-- C10: a top-level `task` node with a valid string name and no children
block contributes nothing to the task table — the loop continues with the
table unchanged — while its name argument is still validated first: a missing
name argument is a missing-argument error and a non-string one an
invalid-string error. -/
theorem c10_task_no_children (tasks : List (String × Task))
    (es : List KdlEntry) (rest : List KdlNode) :
    (∀ (e : KdlEntry) (nm : String),
      (⟨"task", es, none⟩ : KdlNode).getArg 0 = some e →
      e.value.as_string? = some nm →
      readTasksLoop tasks (⟨"task", es, none⟩ :: rest) = readTasksLoop tasks rest) ∧
    ((⟨"task", es, none⟩ : KdlNode).getArg 0 = none →
      readTasksLoop tasks (⟨"task", es, none⟩ :: rest) =
        .error (.configError .missingArgument)) ∧
    (∀ e : KdlEntry,
      (⟨"task", es, none⟩ : KdlNode).getArg 0 = some e →
      e.value.as_string? = none →
      readTasksLoop tasks (⟨"task", es, none⟩ :: rest) =
        .error (.configError .invalidString)) := by
  refine ⟨?_, ?_, ?_⟩
  · intro e nm he hv
    simp only [readTasksLoop, readTasksStep, KdlNode.name, ne_eq]
    rw [he]
    dsimp only
    rw [hv]
    simp [KdlNode.children]
  · intro he
    simp only [readTasksLoop, readTasksStep, KdlNode.name, ne_eq]
    rw [he]
    simp
  · intro e he hv
    simp only [readTasksLoop, readTasksStep, KdlNode.name, ne_eq]
    rw [he]
    dsimp only
    rw [hv]
    simp [KdlNode.children]

/-- Witness for C10: a childless `task "t"` node leaves the empty task table
unchanged. -/
theorem c10_task_no_children_witness :
    readTasksLoop [] [⟨"task", [⟨none, .str "t"⟩], none⟩] = readTasksLoop [] [] :=
  (c10_task_no_children [] [⟨none, .str "t"⟩] []).1 ⟨none, .str "t"⟩ "t" rfl rfl

end Skel
